import Mathlib

/-!
Verification of the node-graph dataflow engine of the Atlas visual editor
(`atlas_dearpygui_gui/atlas_node_editor.py` and `atlas_dearpygui_gui/main.py`).

The embedding models dearpygui item aliases as the strings the source
manipulates ("node_id:node_name:port_type:port_name"), links as pairs of
such alias strings (the source stores two-element lists), the ordered
dictionaries of the source as association lists (new keys appended at the
end, existing keys updated in place), and the shared `node_data_dict` /
`node_result_dict` Python dictionaries as functions `String → Option Val`.
Python `None` is the value `Val.vnone`; an absent key is `Option.none`.
The unbounded `while` loops of `_sort_node_graph` are given an explicit
fuel argument: a result `none` means the loop did not finish within that
many iterations of the loop body.
-/

namespace Atlas

/-- Python values that flow through the engine: `vnone` is Python `None`,
`vint` and `vstr` model the payloads the claims need. -/
inductive Val where
  | vnone : Val
  | vint : Nat → Val
  | vstr : String → Val
deriving DecidableEq, Inhabited

/-- Python `==` across the value kinds used by the editor: equal ints or
equal strings compare equal; values of different runtime types (in
particular a `str` against an `int`) compare unequal. -/
def pyEq : Val → Val → Bool
  | .vint a, .vint b => a == b
  | .vstr a, .vstr b => a == b
  | .vnone, .vnone => true
  | _, _ => false

/-- A dearpygui attribute alias, e.g. "1:AtlasAPI:TimeSeries:Output01". -/
abbrev Tag := String

/-- A link as stored in `_node_link_list`: `[source, destination]`. -/
abbrev Link := Tag × Tag

/-- Python `t.split(':')` on the character list (structural recursion, so
that concrete graphs evaluate inside the kernel): splitting the empty
string yields `[""]`, exactly as in Python. -/
def splitFields : List Char → List String
  | [] => [""]
  | c :: rest =>
    if c = ':' then "" :: splitFields rest
    else
      match splitFields rest with
      | [] => [String.mk [c]]
      | f :: fs => String.mk (c :: f.toList) :: fs

/-- `t.split(':')` of the source. -/
def pySplit (t : String) : List String :=
  splitFields t.toList

/-- Numeric value of a decimal digit character. -/
def charDigit (c : Char) : Nat :=
  c.toNat - 48

/-- Python `int(s)` on the strings the editor produces: defined on
non-empty all-digit strings, `none` (a raised `ValueError`) otherwise. -/
def strToNat (s : String) : Option Nat :=
  if s.toList ≠ [] ∧ s.toList.all (fun c => c.isDigit) then
    some (s.toList.foldl (fun n c => 10 * n + charDigit c) 0)
  else none

/-- `t.split(':')[i]` of the source (with `""` for an out-of-range index). -/
def tagPart (t : Tag) (i : Nat) : String :=
  (pySplit t).getD i ""

/-- `int(t.split(':')[0])` of the source: the numeric node id of an alias
(0 for a malformed alias, on which Python would raise). -/
def parseId (t : Tag) : Nat :=
  (strToNat (tagPart t 0)).getD 0

/-- `split[0] + ':' + split[1]`: the "id:name" key `_sort_node_graph` builds
for a destination alias. -/
def nodeNameKey (t : Tag) : String :=
  tagPart t 0 ++ ":" ++ tagPart t 1

/-- Python `':'.join(fields)`. -/
def joinColon : List String → String
  | [] => ""
  | [f] => f
  | f :: fs => f ++ ":" ++ joinColon fs

/-- `':'.join(t.split(':')[:2])`: the node key `_callback_mv_key_del`
computes for a link endpoint. -/
def nodeKeyOf (t : Tag) : String :=
  joinColon ((pySplit t).take 2)

/-- `t.split(':')[2]`: the port type field of an alias, compared by
`_callback_link`. -/
def portTypeOf (t : Tag) : String :=
  tagPart t 2

/-! ### `_callback_link` (atlas_node_editor.py lines 287-325)

The callback receives the two endpoint aliases (`dpg.get_item_alias` is the
identity here since links are stored as aliases).  Only its effect on
`_node_link_list` is modelled; the subsequent recomputation of
`_node_connection_dict` is `sort_node_graph` below. -/

/-- The new `_node_link_list` after `_callback_link` runs with endpoint
aliases `src` and `dst`. -/
def callback_link (links : List Link) (src dst : Tag) : List Link :=
  if portTypeOf src == portTypeOf dst then
    if links.length == 0 then
      links ++ [(src, dst)]
    else
      -- `duplicate_flag`: some existing link already ends at `dst`
      if !(links.any (fun node_link => dst == node_link.2)) then
        links ++ [(src, dst)]
      else links
  else
    links

/-- The specification's error taxonomy for link mutations. -/
inductive LinkError where
  | typeMismatch
  | directionMismatch
  | inputAlreadyBound
  | unknownPort
deriving DecidableEq

/-- Written from the specification's words, for comparison with the
source's callback: the Linker contract rejects a type mismatch with
Err(TypeMismatch), an already-bound destination with
Err(InputAlreadyBound), and otherwise inserts the link and returns Ok.
(The spec's direction check has no counterpart here: the source's aliases
carry no direction field.) -/
def try_add_link_spec (links : List Link) (src dst : Tag) :
    Except LinkError (List Link) :=
  if portTypeOf src ≠ portTypeOf dst then Except.error LinkError.typeMismatch
  else if links.any (fun node_link => dst == node_link.2) then
    Except.error LinkError.inputAlreadyBound
  else Except.ok (links ++ [(src, dst)])

/-- The source's `_callback_link` together with the value it returns to
its caller: the Python function body contains no return statement, so
every path returns None — no error value is ever surfaced to the caller,
whatever the input. -/
def callback_link_full (links : List Link) (src dst : Tag) :
    List Link × Option LinkError :=
  (callback_link links src dst, none)

/-- A link endpoint lies on the node `node_id_name` (the test of the
deletion loop in `_callback_mv_key_del`). -/
def touches (node_id_name : String) (l : Link) : Bool :=
  nodeKeyOf l.1 == node_id_name || nodeKeyOf l.2 == node_id_name

/-- The link-removal loop of `_callback_mv_key_del`: iterate over a copy of
the link list and `remove` every link with an endpoint on the node. -/
def key_del_links (node_id_name : String) (links : List Link) : List Link :=
  links.foldl
    (fun acc link_info =>
      if touches node_id_name link_info then acc.erase link_info else acc)
    links

/-- The node-deletion branch of `_callback_mv_key_del` acting on
`(_node_list, _node_link_list)`. -/
def callback_mv_key_del (node_id_name : String)
    (node_list : List String) (links : List Link) :
    List String × List Link :=
  (node_list.erase node_id_name, key_del_links node_id_name links)

/-- One topology mutation of the editor, as issued by the UI callbacks. -/
inductive EditorOp where
  | addLink : Tag → Tag → EditorOp
  | delNode : String → EditorOp
  | delLink : Link → EditorOp

/-- Effect of one mutation on the link list (`_callback_link`, the two
branches of `_callback_mv_key_del`). -/
def applyOp (links : List Link) : EditorOp → List Link
  | .addLink s d => callback_link links s d
  | .delNode n => key_del_links n links
  | .delLink l => links.erase l

/-- Effect of a whole mutation sequence on the link list. -/
def applyOps (links : List Link) (ops : List EditorOp) : List Link :=
  ops.foldl applyOp links

/-- Fan-in invariant: no two links in the list share a destination alias. -/
def fanInOK (links : List Link) : Prop :=
  (links.map (·.2)).Nodup

instance (links : List Link) : Decidable (fanInOK links) := by
  unfold fanInOK; infer_instance

/-- Every link connects two ports of equal port type. -/
def wellTyped (links : List Link) : Prop :=
  ∀ l ∈ links, portTypeOf l.1 = portTypeOf l.2

instance (links : List Link) : Decidable (wellTyped links) := by
  unfold wellTyped; infer_instance

/-! ### `_sort_node_graph` (atlas_node_editor.py lines 331-396)

Phase A builds `node_id_dict` (destination id → list of source ids) and
`node_connection_dict` (destination "id:name" → list of links) in one pass
over the link list; phase B is the index/swap stabilisation loop over the
two (parallel) item lists; phase C scans for predecessors that are not
themselves destinations and would prepend them — its innermost comparison
`node_id == check_id` compares a Python `str` with an `int`.  The two
`while` loops carry a fuel argument because the source bounds neither. -/

/-- An entry of `node_id_dict`: destination id paired with its source ids. -/
abbrev IdEntry := Nat × List Nat

/-- An entry of `node_connection_dict`: destination "id:name" key paired
with its links. -/
abbrev ConnEntry := String × List Link

/-- Ordered-dict update `dict[k].append(v)` (creating the entry at the end
when the key is new): the shape of both dictionary updates in phase A. -/
def dictAppend [BEq κ] (dict : List (κ × List β)) (k : κ) (v : β) :
    List (κ × List β) :=
  match dict with
  | [] => [(k, [v])]
  | e :: rest =>
    if e.1 == k then (e.1, e.2 ++ [v]) :: rest
    else e :: dictAppend rest k v

/-- Ordered-dict update `node_id_dict[destination_id].append(source_id)`. -/
def addPred (dict : List IdEntry) (dst src : Nat) : List IdEntry :=
  dictAppend dict dst src

/-- Ordered-dict update `node_connection_dict[node_name].append(link)`. -/
def addConn (dict : List ConnEntry) (key : String) (l : Link) :
    List ConnEntry :=
  dictAppend dict key l

/-- Processing of one `node_link_info` by phase A of `_sort_node_graph`. -/
def buildStep (st : List IdEntry × List ConnEntry) (l : Link) :
    List IdEntry × List ConnEntry :=
  (addPred st.1 (parseId l.2) (parseId l.1),
   addConn st.2 (nodeNameKey l.2) l)

/-- Phase A of `_sort_node_graph`: one pass over `node_link_list` building
both ordered dictionaries. -/
def buildDicts (links : List Link) : List IdEntry × List ConnEntry :=
  links.foldl buildStep ([], [])

/-- The simultaneous assignment
`a[i], a[j] = a[j], a[i]` on a Lean list. -/
def swapAt [Inhabited α] (l : List α) (i j : Nat) : List α :=
  (l.set i (l.getD j default)).set j (l.getD i default)

/-- The inner `for check_index in range(index+1, len(...))` search: first
position at or after `start` whose entry has key `target`. -/
def findFrom (ids : List IdEntry) (start target : Nat) : Option Nat :=
  if start + (ids.drop start).findIdx (fun e => e.1 == target) < ids.length
  then some (start + (ids.drop start).findIdx (fun e => e.1 == target))
  else none

/-- One pass of the `for check_id in node_id_list[index][1]` loop: `P` is
the predecessor list captured when the pass starts, each hit swaps the
entries at `index` and at the first found later position in both parallel
lists and records `swap_flag = True` (the `flag` accumulator). -/
def forPass (index : Nat) (P : List Nat)
    (st : List IdEntry × List ConnEntry) (flag : Bool) :
    (List IdEntry × List ConnEntry) × Bool :=
  match P with
  | [] => (st, flag)
  | check_id :: rest =>
    match findFrom st.1 (index + 1) check_id with
    | some j =>
      forPass index rest (swapAt st.1 index j, swapAt st.2 index j) true
    | none => forPass index rest st flag

/-- The stabilisation `while index < len(node_id_list)` loop of phase B.
`none` means the fuel ran out before the loop exited. -/
def sortLoop : Nat → Nat → List IdEntry → List ConnEntry →
    Option (List IdEntry × List ConnEntry)
  | 0, _, _, _ => none
  | fuel + 1, index, ids, conns =>
    if index < ids.length then
      match forPass index (ids.getD index default).2 (ids, conns) false with
      | (st, true) => sortLoop fuel index st.1 st.2
      | (st, false) => sortLoop fuel (index + 1) st.1 st.2
    else some (ids, conns)

/-- The `for index, node_id_name in enumerate(node_list)` lookup of phase C.
`p` is the enumeration position assigned to the (shared) variable `index`
at the start of each iteration; `idx` is its value before the loop, kept
when `node_list` is empty.  The comparison is Python `==` between the
`str` field of the alias and the `int` predecessor id. -/
def enumFindAux : List String → Nat → Nat → Nat → Option String × Nat
  | [], _, _, idx => (none, idx)
  | name :: rest, p, check_id, idx =>
    let _ := idx
    if pyEq (Val.vstr (tagPart name 0)) (Val.vint check_id) then
      (some name, p)
    else
      enumFindAux rest (p + 1) check_id p

/-- Ordered-dict update `unfinded_id_dict[check_id] = name`. -/
def upsertNat (dict : List (Nat × String)) (k : Nat) (v : String) :
    List (Nat × String) :=
  match dict with
  | [] => [(k, v)]
  | e :: rest => if e.1 == k then (k, v) :: rest else e :: upsertNat rest k v

/-- The `for check_id in node_id_list[index][1]` loop of phase C, threading
the `unfinded_id_dict` and the (reassignable) `index` variable. -/
def orphanPass (ids : List IdEntry) (node_list : List String) :
    List Nat → List (Nat × String) → Nat → List (Nat × String) × Nat
  | [], unf, idx => (unf, idx)
  | check_id :: rest, unf, idx =>
    if ids.any (fun e => e.1 == check_id) then
      orphanPass ids node_list rest unf idx
    else
      match enumFindAux node_list 0 check_id idx with
      | (some name, p) =>
        orphanPass ids node_list rest (upsertNat unf check_id name) p
      | (none, p) => orphanPass ids node_list rest unf p

/-- The `while index < len(node_id_list)` loop of phase C, with fuel. -/
def orphanLoop : Nat → Nat → List IdEntry → List String →
    List (Nat × String) → Option (List (Nat × String))
  | 0, _, _, _, _ => none
  | fuel + 1, index, ids, node_list, unf =>
    if index < ids.length then
      match orphanPass ids node_list (ids.getD index default).2 unf index with
      | (unf2, idx2) => orphanLoop fuel (idx2 + 1) ids node_list unf2
    else some unf

/-- `_sort_node_graph(node_list, node_link_list)`: the returned ordered
dictionary as an association list whose key sequence is the execution
order.  The trailing fold performs the `insert(0, (value, []))` prepends
for `unfinded_id_dict.values()`. -/
def sort_node_graph (node_list : List String) (links : List Link)
    (fuel : Nat) : Option (List ConnEntry) :=
  let dicts := buildDicts links
  match sortLoop fuel 0 dicts.1 dicts.2 with
  | none => none
  | some st =>
    match orphanLoop fuel 0 st.1 node_list [] with
    | none => none
    | some unf =>
      some (unf.foldl (fun acc kv => (kv.2, ([] : List Link)) :: acc) st.2)

/-! ### `update_node_info` (main.py lines 88-133)

The driver walks `node_editor.get_node_list()` — the node list in creation
order — and for each node looks up its connection list in the sorted
connection dictionary, invokes the node instance's `update` capability and
writes the returned pair into the two shared dictionaries.  The capability
(`get_node_instance(node_name).update(node_id, connection_list, data,
result)`) is a parameter `upd`; `upd` returning `none` models the
capability raising, which the `mode_async` branch catches with `continue`. -/

/-- Shared `node_data_dict` / `node_result_dict`: Python dict as a map. -/
abbrev Dict := String → Option Val

/-- `d[k] = v` on a Python dictionary. -/
def dictSet (d : Dict) (k : String) (v : Val) : Dict :=
  fun q => if q = k then some v else d q

/-- The update capability: arguments are `node_id`, `node_name`, the
connection list and the two shared dictionaries; `none` models a raise. -/
abbrev UpdateFn := String → String → List Link → Dict → Dict →
  Option (Val × Val)

/-- The `try`/update/write part of one loop iteration: invoke the node's
`update` with its id, name, connection list and the shared dictionaries;
on success write both returned payloads under the node's key, on a raise
(`none`) leave the dictionaries as they are (`continue`). -/
def driver_run (upd : UpdateFn) (conn_dict : List ConnEntry)
    (data res : Dict) (node_id_name : String) : Dict × Dict :=
  match upd (tagPart node_id_name 0) (tagPart node_id_name 1)
      (((conn_dict.find? (fun e => e.1 == node_id_name)).map
        (fun e => e.2)).getD [])
      data res with
  | none => (data, res)
  | some dr =>
    (dictSet data node_id_name dr.1, dictSet res node_id_name dr.2)

/-- The loop body of `update_node_info` for one `node_id_name`: first the
`if node_id_name not in node_data_dict` initialisation to `None`, then the
guarded update call. -/
def driver_step (upd : UpdateFn) (conn_dict : List ConnEntry)
    (st : Dict × Dict) (node_id_name : String) : Dict × Dict :=
  match st.1 node_id_name with
  | none =>
    driver_run upd conn_dict (dictSet st.1 node_id_name Val.vnone) st.2
      node_id_name
  | some _ => driver_run upd conn_dict st.1 st.2 node_id_name

/-- `update_node_info(node_editor, node_data_dict, node_result_dict)` in
the `mode_async` (exception-catching) form: one refresh cycle. -/
def update_node_info (upd : UpdateFn) (conn_dict : List ConnEntry)
    (node_list : List String) (data res : Dict) : Dict × Dict :=
  node_list.foldl (driver_step upd conn_dict) (data, res)

/-! ### `_callback_file_export` / `_callback_file_import`
(atlas_node_editor.py lines 398-429 and 442-514)

The JSON codec is modelled as the identity on the structured value (the
settings blob each node returns from `get_setting_dict` is opaque to the
editor).  Import is modelled on its happy path (`file_name != '.'`,
every listed node name registered): it re-adds each node under its
original id, bumps `_node_id` to the maximum imported id, replays
`set_setting_dict`, restores the two lists and re-sorts. -/

/-- The dictionary a node's `get_setting_dict` returns: a Python dict of
string keys.  The editor itself reads only the keys 'ver' and 'pos' from
it; nothing forces a node kind to provide them (the DefaultDataset kind
returns a dict with neither). -/
abbrev NodeSetting := List (String × Val)

/-- Python `d[k]` on a settings dictionary: `none` is a raised KeyError. -/
def lookupVal (d : NodeSetting) (k : String) : Option Val :=
  (d.find? (fun e => e.1 == k)).map (fun e => e.2)

/-- The per-node record `{'id': ..., 'name': ..., 'setting': ...}` the
export callback stores under the "id:name" key. -/
structure ExportEntry where
  id : String
  name : String
  setting : NodeSetting
deriving DecidableEq, Inhabited

/-- The whole `setting_dict` written to the JSON file. -/
structure SettingDict where
  node_list : List String
  link_list : List Link
  atlas_config : Val
  entries : List (String × ExportEntry)
deriving DecidableEq

/-- `_callback_file_export`: `getSetting node_name node_id` is the
`get_setting_dict` capability of the node instance registered under
`node_name`, called with the node's id string. -/
def callback_file_export (node_list : List String) (links : List Link)
    (config : Val) (getSetting : String → String → NodeSetting) :
    SettingDict :=
  { node_list := node_list
    link_list := links
    atlas_config := config
    entries := node_list.map (fun node_id_name =>
      (node_id_name,
       { id := tagPart node_id_name 0
         name := tagPart node_id_name 1
         setting := getSetting (tagPart node_id_name 1)
           (tagPart node_id_name 0) })) }

/-- What `_callback_file_import` leaves behind when it completes: the
bumped `_node_id` counter, the restored lists, the sequence of
`set_setting_dict(node_id, setting)` calls it issued in order, and the
recomputed connection dict. -/
structure ImportOutcome where
  final_node_id : Nat
  node_list : List String
  link_list : List Link
  applied : List (Nat × NodeSetting)
  conn : Option (List ConnEntry)

/-- A KeyError aborting `_callback_file_import` mid-loop: by that point
the `_node_id` counter has already been bumped for the failing node and
the earlier nodes' `set_setting_dict` calls have been replayed, but the
assignments to `_node_list` / `_node_link_list` and the re-sort are never
reached, so the editor's lists stay as they were.  `missing` is the key
whose lookup raised. -/
structure ImportAbort where
  node_id : Nat
  applied : List (Nat × NodeSetting)
  missing : String
deriving DecidableEq

/-- The `if node_id > self._node_id` counter bump of the import loop. -/
def bumpId (c : Nat) (node_id_name : String) : Nat :=
  if parseId node_id_name > c then parseId node_id_name else c

/-- One iteration of the import loop over `setting_dict['node_list']`:
bump the `_node_id` counter, look the node's record up in the setting
dictionary, read its setting's 'ver' and then 'pos' — each missing key is
a KeyError that aborts the import — and finally replay
`set_setting_dict` with the whole setting dict. -/
def importNode (entries : List (String × ExportEntry))
    (st : Nat × List (Nat × NodeSetting)) (node_id_name : String) :
    Except ImportAbort (Nat × List (Nat × NodeSetting)) :=
  match entries.find?
      (fun (e : String × ExportEntry) => e.1 == node_id_name) with
  | none => Except.error ⟨bumpId st.1 node_id_name, st.2, node_id_name⟩
  | some entry =>
    match lookupVal entry.2.setting "ver" with
    | none => Except.error ⟨bumpId st.1 node_id_name, st.2, "ver"⟩
    | some _ =>
      match lookupVal entry.2.setting "pos" with
      | none => Except.error ⟨bumpId st.1 node_id_name, st.2, "pos"⟩
      | some _ =>
        Except.ok (bumpId st.1 node_id_name,
          st.2 ++ [(parseId node_id_name, entry.2.setting)])

/-- The import loop with Python exception propagation: once a KeyError is
raised the remaining nodes are never processed. -/
def importStep (entries : List (String × ExportEntry)) :
    Except ImportAbort (Nat × List (Nat × NodeSetting)) → String →
    Except ImportAbort (Nat × List (Nat × NodeSetting))
  | Except.error e, _ => Except.error e
  | Except.ok st, node_id_name => importNode entries st node_id_name

/-- `_callback_file_import` (assuming every listed node kind is
registered): either the completed outcome or the state at the KeyError
that aborted it. -/
def callback_file_import (sd : SettingDict) (node_id0 : Nat) (fuel : Nat) :
    Except ImportAbort ImportOutcome :=
  match sd.node_list.foldl (importStep sd.entries)
      (Except.ok (node_id0, [])) with
  | Except.error e => Except.error e
  | Except.ok st =>
    Except.ok
      { final_node_id := st.1
        node_list := sd.node_list
        link_list := sd.link_list
        applied := st.2
        conn := sort_node_graph sd.node_list sd.link_list fuel }

/-! ### Helper lemmas: swaps -/

/-- Where index `k` ends up when the entries at `a` and `b` are swapped. -/
def swapIdx (a b k : Nat) : Nat :=
  if k = a then b else if k = b then a else k

theorem swapIdx_lt {a b k n : Nat} (ha : a < n) (hb : b < n) (hk : k < n) :
    swapIdx a b k < n := by
  unfold swapIdx; split_ifs <;> omega

theorem swapIdx_gt {a b k i : Nat} (ha : i < a) (hb : i < b) (hk : i < k) :
    i < swapIdx a b k := by
  unfold swapIdx; split_ifs <;> omega

theorem swapIdx_invol (a b k : Nat) : swapIdx a b (swapIdx a b k) = k := by
  unfold swapIdx; split_ifs <;> omega

theorem length_swapAt [Inhabited α] (l : List α) (i j : Nat) :
    (swapAt l i j).length = l.length := by
  simp [swapAt]

theorem getD_swapAt [Inhabited α] (l : List α) {a b : Nat}
    (ha : a < l.length) (hb : b < l.length) (k : Nat) :
    (swapAt l a b).getD k default = l.getD (swapIdx a b k) default := by
  by_cases hkb : k = b
  · rw [hkb]
    have h1 : ((l.set a (l.getD b default)).set b (l.getD a default))[b]? =
        some (l.getD a default) :=
      List.getElem?_set_self (by simpa using hb)
    have h2 : swapIdx a b b = a := by unfold swapIdx; split_ifs <;> omega
    rw [swapAt, h2, List.getD_eq_getElem?_getD, h1]
    rfl
  · by_cases hka : k = a
    · rw [hka]
      have h1 : ((l.set a (l.getD b default)).set b (l.getD a default))[a]? =
          (l.set a (l.getD b default))[a]? :=
        List.getElem?_set_ne (fun h => hkb (hka.trans h.symm))
      have h2 : (l.set a (l.getD b default))[a]? = some (l.getD b default) :=
        List.getElem?_set_self ha
      have h3 : swapIdx a b a = b := by unfold swapIdx; split_ifs <;> omega
      rw [swapAt, h3, List.getD_eq_getElem?_getD, h1, h2]
      rfl
    · have h1 : ((l.set a (l.getD b default)).set b (l.getD a default))[k]? =
          (l.set a (l.getD b default))[k]? :=
        List.getElem?_set_ne (fun h => hkb h.symm)
      have h2 : (l.set a (l.getD b default))[k]? = l[k]? :=
        List.getElem?_set_ne (fun h => hka h.symm)
      have h3 : swapIdx a b k = k := by
        unfold swapIdx; split_ifs; all_goals omega
      rw [swapAt, h3, List.getD_eq_getElem?_getD, h1, h2, List.getD_eq_getElem?_getD]

/-! ### Helper lemmas: `findFrom` -/

theorem findFrom_some {ids : List IdEntry} {start target j : Nat}
    (h : findFrom ids start target = some j) :
    start ≤ j ∧ j < ids.length ∧ (ids.getD j (0, [])).1 = target := by
  unfold findFrom at h
  split_ifs at h with hlt
  · cases h
    refine ⟨Nat.le_add_right _ _, hlt, ?_⟩
    have hk : (ids.drop start).findIdx (fun e => e.1 == target) <
        (ids.drop start).length := by
      simp only [List.length_drop]; omega
    have hpred := List.findIdx_getElem
      (p := fun (e : IdEntry) => e.1 == target) (w := hk)
    have he : ids.getD
        (start + (ids.drop start).findIdx (fun e => e.1 == target)) (0, []) =
        (ids.drop start).get
          ⟨(ids.drop start).findIdx (fun e => e.1 == target), hk⟩ := by
      rw [List.getD_eq_getElem?_getD, ← List.getElem?_drop,
        List.getElem?_eq_getElem hk]
      rfl
    rw [he]
    simpa using hpred

theorem findFrom_none {ids : List IdEntry} {start target : Nat}
    (h : findFrom ids start target = none) :
    ∀ j, start ≤ j → j < ids.length → (ids.getD j (0, [])).1 ≠ target := by
  intro j hsj hjl
  unfold findFrom at h
  split_ifs at h with hlt
  have hfi : (ids.drop start).findIdx (fun e => e.1 == target) =
      (ids.drop start).length := by
    have h1 := @List.findIdx_le_length IdEntry (fun e => e.1 == target)
      (ids.drop start)
    simp only [List.length_drop] at h1 hlt ⊢
    omega
  have hall := List.findIdx_eq_length.mp hfi
  have hje : ids.getD j (0, []) = ids.get ⟨j, hjl⟩ := by
    rw [List.getD_eq_getElem?_getD, List.getElem?_eq_getElem hjl]
    rfl
  have hmem : ids.get ⟨j, hjl⟩ ∈ ids.drop start := by
    rw [List.mem_iff_getElem?]
    refine ⟨j - start, ?_⟩
    rw [List.getElem?_drop]
    have hadd : start + (j - start) = j := by omega
    rw [hadd, List.getElem?_eq_getElem hjl]
    rfl
  have hfalse := hall _ hmem
  intro hcontra
  rw [hje] at hcontra
  rw [hcontra] at hfalse
  simp at hfalse

/-! ### Scheduler invariants

`idKey`/`idPreds`/`connKey` read the two parallel item lists positionally;
`aligned` couples them: the lists have equal length, every position holds
the id-entry and connection-entry of one destination alias, a destination
entry collects every matching link source, every processed link has an
entry, and id keys are position-wise distinct.  `noLater` is the exit
condition of the stabilisation loop at one position. -/

/-- Key of the id-entry at position `i` (`node_id_list[i][0]`). -/
def idKey (ids : List IdEntry) (i : Nat) : Nat :=
  (ids.getD i default).1

/-- Predecessor list of the id-entry at position `i` (`node_id_list[i][1]`). -/
def idPreds (ids : List IdEntry) (i : Nat) : List Nat :=
  (ids.getD i default).2

/-- Key of the connection entry at position `i`. -/
def connKey (conns : List ConnEntry) (i : Nat) : String :=
  (conns.getD i default).1

/-- No predecessor of the entry at position `i` appears at a later
position: what a completed scan certifies at `i`. -/
def noLater (ids : List IdEntry) (i : Nat) : Prop :=
  ∀ p ∈ idPreds ids i, ∀ j, i < j → j < ids.length → idKey ids j ≠ p

/-- All endpoint aliases of a link list. -/
def allTags (links : List Link) : List Tag :=
  links.map (·.1) ++ links.map (·.2)

/-- The "id:name" key of an alias determines its numeric id and vice versa
across all aliases of the graph — true in the editor, where a node id and
a node tag determine one another. -/
def idKeyConsistent (links : List Link) : Prop :=
  ∀ t ∈ allTags links, ∀ u ∈ allTags links,
    (nodeNameKey t = nodeNameKey u ↔ parseId t = parseId u)

instance (links : List Link) : Decidable (idKeyConsistent links) := by
  unfold idKeyConsistent; infer_instance

/-- The coupling invariant between `node_id_list` and
`node_connection_list` relative to the processed links `L`. -/
def aligned (L : List Link) (ids : List IdEntry)
    (conns : List ConnEntry) : Prop :=
  ids.length = conns.length ∧
  (∀ i, i < ids.length → ∃ t, t ∈ L.map (·.2) ∧ idKey ids i = parseId t ∧
    connKey conns i = nodeNameKey t ∧
    ∀ l ∈ L, parseId l.2 = parseId t → parseId l.1 ∈ idPreds ids i) ∧
  (∀ l ∈ L, ∃ i, i < ids.length ∧ idKey ids i = parseId l.2) ∧
  (∀ i j, i < ids.length → j < ids.length → i ≠ j →
    idKey ids i ≠ idKey ids j)

/-! ### Preservation of the invariants by one swap -/

theorem aligned_swapAt {L : List Link} {ids : List IdEntry}
    {conns : List ConnEntry} {a b : Nat}
    (ha : a < ids.length) (hb : b < ids.length)
    (h : aligned L ids conns) :
    aligned L (swapAt ids a b) (swapAt conns a b) := by
  obtain ⟨h1, h2, h3, h4⟩ := h
  have ha2 : a < conns.length := h1 ▸ ha
  have hb2 : b < conns.length := h1 ▸ hb
  have hkey : ∀ k, idKey (swapAt ids a b) k = idKey ids (swapIdx a b k) :=
    fun k => congrArg Prod.fst (getD_swapAt ids ha hb k)
  have hpreds : ∀ k, idPreds (swapAt ids a b) k = idPreds ids (swapIdx a b k) :=
    fun k => congrArg Prod.snd (getD_swapAt ids ha hb k)
  have hckey : ∀ k, connKey (swapAt conns a b) k = connKey conns (swapIdx a b k) :=
    fun k => congrArg Prod.fst (getD_swapAt conns ha2 hb2 k)
  have hlen : (swapAt ids a b).length = ids.length := length_swapAt ids a b
  have hlen2 : (swapAt conns a b).length = conns.length := length_swapAt conns a b
  refine ⟨by rw [hlen, hlen2, h1], ?_, ?_, ?_⟩
  · intro i hi
    have hi' : swapIdx a b i < ids.length :=
      swapIdx_lt ha hb (hlen ▸ hi)
    obtain ⟨t, htm, hik, hck, hpr⟩ := h2 (swapIdx a b i) hi'
    exact ⟨t, htm, (hkey i).trans hik, (hckey i).trans hck,
      fun l hl he => (hpreds i) ▸ hpr l hl he⟩
  · intro l hl
    obtain ⟨i, hi, hik⟩ := h3 l hl
    refine ⟨swapIdx a b i, hlen ▸ swapIdx_lt ha hb hi, ?_⟩
    rw [hkey, swapIdx_invol]
    exact hik
  · intro i j hi hj hij
    rw [hkey, hkey]
    have hinj : swapIdx a b i ≠ swapIdx a b j := by
      intro he
      exact hij ((swapIdx_invol a b i) ▸ (swapIdx_invol a b j) ▸
        congrArg (swapIdx a b) he)
    exact h4 _ _ (swapIdx_lt ha hb (hlen ▸ hi))
      (swapIdx_lt ha hb (hlen ▸ hj)) hinj

theorem noLater_swapAt {ids : List IdEntry} {a b i : Nat}
    (hia : i < a) (hib : i < b) (ha : a < ids.length) (hb : b < ids.length)
    (h : noLater ids i) : noLater (swapAt ids a b) i := by
  intro p hp j hij hjl
  have hkey : idKey (swapAt ids a b) j = idKey ids (swapIdx a b j) :=
    congrArg Prod.fst (getD_swapAt ids ha hb j)
  have hpreds : idPreds (swapAt ids a b) i = idPreds ids i := by
    have : swapIdx a b i = i := by
      unfold swapIdx; split_ifs; all_goals omega
    have hgd := getD_swapAt ids ha hb i
    rw [this] at hgd
    exact congrArg Prod.snd hgd
  rw [hpreds] at hp
  rw [hkey]
  have hjl' : j < ids.length := (length_swapAt ids a b) ▸ hjl
  exact h p hp _ (swapIdx_gt hia hib hij) (swapIdx_lt ha hb hjl')

/-! ### `forPass` and `sortLoop` lemmas -/

theorem forPass_flag_true (index : Nat) (P : List Nat)
    (st : List IdEntry × List ConnEntry) :
    (forPass index P st true).2 = true := by
  induction P generalizing st with
  | nil => rfl
  | cons c rest ih =>
    rw [forPass]
    cases hf : findFrom st.1 (index + 1) c with
    | some j => exact ih _
    | none => exact ih _

theorem forPass_false {index : Nat} {P : List Nat}
    {st : List IdEntry × List ConnEntry}
    (h : (forPass index P st false).2 = false) :
    forPass index P st false = (st, false) ∧
    ∀ p ∈ P, findFrom st.1 (index + 1) p = none := by
  induction P generalizing st with
  | nil => exact ⟨rfl, by simp⟩
  | cons c rest ih =>
    rw [forPass] at h ⊢
    cases hf : findFrom st.1 (index + 1) c with
    | some j =>
      rw [hf] at h
      rw [forPass_flag_true] at h
      exact absurd h (by simp)
    | none =>
      rw [hf] at h
      obtain ⟨he, hall⟩ := ih h
      refine ⟨he, ?_⟩
      intro p hp
      rcases List.mem_cons.mp hp with hp | hp
      · rw [hp]; exact hf
      · exact hall p hp

theorem forPass_invariant {L : List Link} {index : Nat} (P : List Nat)
    (st : List IdEntry × List ConnEntry) (flag : Bool)
    (hidx : index < st.1.length)
    (h : aligned L st.1 st.2)
    (hN : ∀ i, i < index → noLater st.1 i) :
    aligned L (forPass index P st flag).1.1 (forPass index P st flag).1.2 ∧
    (∀ i, i < index → noLater (forPass index P st flag).1.1 i) ∧
    (forPass index P st flag).1.1.length = st.1.length := by
  induction P generalizing st flag with
  | nil => exact ⟨h, hN, rfl⟩
  | cons c rest ih =>
    rw [forPass]
    cases hf : findFrom st.1 (index + 1) c with
    | some j =>
      obtain ⟨hj1, hj2, _⟩ := findFrom_some hf
      have hb : j < st.1.length := hj2
      have ha : index < st.1.length := hidx
      have h' : aligned L (swapAt st.1 index j) (swapAt st.2 index j) :=
        aligned_swapAt ha hb h
      have hN' : ∀ i, i < index → noLater (swapAt st.1 index j) i :=
        fun i hi => noLater_swapAt hi (by omega) ha hb (hN i hi)
      have hidx' : index < (swapAt st.1 index j).length := by
        rw [length_swapAt]; exact hidx
      obtain ⟨c1, c2, c3⟩ := ih (swapAt st.1 index j, swapAt st.2 index j)
        true hidx' h' hN'
      exact ⟨c1, c2, by rw [c3, length_swapAt]⟩
    | none => exact ih st flag hidx h hN

theorem sortLoop_post {L : List Link} :
    ∀ (fuel index : Nat) (ids : List IdEntry) (conns : List ConnEntry)
      (ids2 : List IdEntry) (conns2 : List ConnEntry),
    sortLoop fuel index ids conns = some (ids2, conns2) →
    aligned L ids conns →
    (∀ i, i < index → noLater ids i) →
    aligned L ids2 conns2 ∧ ∀ i, i < ids2.length → noLater ids2 i := by
  intro fuel
  induction fuel with
  | zero => intro index ids conns ids2 conns2 h; exact absurd h (by simp [sortLoop])
  | succ fuel ih =>
    intro index ids conns ids2 conns2 h ha hN
    rw [sortLoop] at h
    split_ifs at h with hlt
    · rcases hfp : forPass index (ids.getD index default).2 (ids, conns) false
        with ⟨st, flag⟩
      rw [hfp] at h
      obtain ⟨c1, c2, c3⟩ := forPass_invariant
        (ids.getD index default).2 (ids, conns) false hlt ha hN
      rw [hfp] at c1 c2 c3
      cases flag with
      | true => exact ih index st.1 st.2 ids2 conns2 h c1 c2
      | false =>
        obtain ⟨heq, hall⟩ := forPass_false (by rw [hfp])
        have hst : st = (ids, conns) := by
          injection hfp.symm.trans heq with h1 h2
        have hNi : noLater ids index := by
          intro p hp j hij hjl
          exact findFrom_none (hall p hp) j (by omega) hjl
        have hN' : ∀ i, i < index + 1 → noLater ids i := by
          intro i hi
          by_cases hii : i < index
          · exact hN i hii
          · have : i = index := by omega
            rw [this]; exact hNi
        rw [hst] at h
        exact ih (index + 1) ids conns ids2 conns2 h ha hN'
    · cases h
      refine ⟨ha, ?_⟩
      intro i hi
      exact hN i (by omega)

/-! ### `dictAppend` lemmas and positional bridges -/

theorem getD_mem [Inhabited α] {l : List α} {i : Nat} (h : i < l.length) :
    l.getD i default ∈ l := by
  rw [List.getD_eq_getElem?_getD, List.getElem?_eq_getElem h]
  exact List.getElem_mem h

theorem mem_pos [Inhabited α] {l : List α} {x : α} (h : x ∈ l) :
    ∃ i, i < l.length ∧ l.getD i default = x := by
  obtain ⟨n, hn, he⟩ := List.mem_iff_getElem.mp h
  refine ⟨n, hn, ?_⟩
  rw [List.getD_eq_getElem?_getD, List.getElem?_eq_getElem hn]
  exact he

theorem getD_append_left [Inhabited α] {l₁ l₂ : List α} {i : Nat}
    (h : i < l₁.length) : (l₁ ++ l₂).getD i default = l₁.getD i default := by
  rw [List.getD_eq_getElem?_getD, List.getD_eq_getElem?_getD,
    List.getElem?_append_left h]

theorem getD_append_last [Inhabited α] {l : List α} {x : α} :
    (l ++ [x]).getD l.length default = x := by
  rw [List.getD_eq_getElem?_getD, List.getElem?_append_right (Nat.le_refl _)]
  simp

theorem dictAppend_absent [BEq κ] [LawfulBEq κ] {d : List (κ × List β)}
    {k : κ} (v : β) (h : ∀ e ∈ d, e.1 ≠ k) :
    dictAppend d k v = d ++ [(k, [v])] := by
  induction d with
  | nil => rfl
  | cons e rest ih =>
    rw [dictAppend]
    have hne : (e.1 == k) = false := by
      simp only [beq_eq_false_iff_ne]
      exact h e (List.mem_cons_self _ _)
    rw [hne]
    simp only [Bool.false_eq_true, if_false, List.cons_append]
    rw [ih (fun x hx => h x (List.mem_cons_of_mem _ hx))]

theorem dictAppend_present [BEq κ] [LawfulBEq κ] [Inhabited κ]
    {d : List (κ × List β)} {k : κ} (v : β)
    (h : ∃ e ∈ d, e.1 = k) :
    ∃ i₀, i₀ < d.length ∧ (d.getD i₀ default).1 = k ∧
      (dictAppend d k v).length = d.length ∧
      (dictAppend d k v).getD i₀ default =
        ((d.getD i₀ default).1, (d.getD i₀ default).2 ++ [v]) ∧
      ∀ i, i < d.length → i ≠ i₀ →
        (dictAppend d k v).getD i default = d.getD i default := by
  induction d with
  | nil => obtain ⟨e, he, _⟩ := h; exact absurd he (by simp)
  | cons e rest ih =>
    by_cases hek : e.1 = k
    · refine ⟨0, by simp, by simpa using hek, ?_, ?_, ?_⟩
      · rw [dictAppend]
        simp [hek]
      · rw [dictAppend]
        simp [hek]
      · intro i hi hi0
        rw [dictAppend]
        simp only [hek, beq_self_eq_true, if_true]
        cases i with
        | zero => exact absurd rfl hi0
        | succ n => simp [List.getD_cons_succ]
    · have hrest : ∃ x ∈ rest, x.1 = k := by
        obtain ⟨x, hx, hxk⟩ := h
        rcases List.mem_cons.mp hx with hx | hx
        · exact absurd (hx ▸ hxk) hek
        · exact ⟨x, hx, hxk⟩
      obtain ⟨i₀, hi₀, hk₀, hlen, hupd, hother⟩ := ih hrest
      refine ⟨i₀ + 1, by simpa using hi₀, by simpa [List.getD_cons_succ] using hk₀,
        ?_, ?_, ?_⟩
      · rw [dictAppend]
        have : (e.1 == k) = false := by simpa using hek
        rw [this]
        simpa using hlen
      · rw [dictAppend]
        have : (e.1 == k) = false := by simpa using hek
        rw [this]
        simpa [List.getD_cons_succ] using hupd
      · intro i hi hi0
        rw [dictAppend]
        have hne : (e.1 == k) = false := by simpa using hek
        rw [hne]
        cases i with
        | zero => simp
        | succ n =>
          simp only [List.getD_cons_succ]
          exact hother n (by simpa using hi) (by omega)

theorem dictAppend_keys_present [BEq κ] [LawfulBEq κ] [Inhabited κ]
    {d : List (κ × List β)} {k : κ} (v : β)
    (h : ∃ e ∈ d, e.1 = k) :
    (dictAppend d k v).length = d.length ∧
    (∀ i, i < d.length →
      ((dictAppend d k v).getD i default).1 = (d.getD i default).1) ∧
    (∀ i, i < d.length →
      ∀ x ∈ (d.getD i default).2, x ∈ ((dictAppend d k v).getD i default).2) ∧
    (∀ i, i < d.length → (d.getD i default).1 = k →
      (∀ i2, i2 < d.length → (d.getD i2 default).1 = k → i2 = i) →
      v ∈ ((dictAppend d k v).getD i default).2) := by
  obtain ⟨i₀, hi₀, hk₀, hlen, hupd, hother⟩ := dictAppend_present v h
  refine ⟨hlen, ?_, ?_, ?_⟩
  · intro i hi
    by_cases hii : i = i₀
    · rw [hii, hupd]
    · rw [hother i hi hii]
  · intro i hi x hx
    by_cases hii : i = i₀
    · rw [hii, hupd]
      exact List.mem_append_left _ (hii ▸ hx)
    · rw [hother i hi hii]
      exact hx
  · intro i hi hik huniq
    have : i₀ = i := huniq i₀ hi₀ hk₀
    rw [← this, hupd]
    exact List.mem_append_right _ (by simp)

/-! ### Phase A establishes the coupling invariant -/

theorem aligned_buildStep {L : List Link} {ids : List IdEntry}
    {conns : List ConnEntry} (l : Link)
    (hwf : ∀ t ∈ (L ++ [l]).map (·.2), ∀ u ∈ (L ++ [l]).map (·.2),
      (nodeNameKey t = nodeNameKey u ↔ parseId t = parseId u))
    (h : aligned L ids conns) :
    aligned (L ++ [l]) (addPred ids (parseId l.2) (parseId l.1))
      (addConn conns (nodeNameKey l.2) l) := by
  obtain ⟨h1, h2, h3, h4⟩ := h
  have hl2mem : l.2 ∈ (L ++ [l]).map (·.2) := by simp
  have hLmem : ∀ t ∈ L.map (·.2), t ∈ (L ++ [l]).map (·.2) := by
    intro t ht
    rw [List.map_append]
    exact List.mem_append_left _ ht
  rw [addPred, addConn]
  by_cases hpres : ∃ i, i < ids.length ∧ idKey ids i = parseId l.2
  · -- the destination id already has an entry; so does its "id:name" key
    obtain ⟨ip, hip, hik⟩ := hpres
    obtain ⟨t, htm, htk, htc, _⟩ := h2 ip hip
    have htK : parseId t = parseId l.2 := htk ▸ hik
    have htS : nodeNameKey t = nodeNameKey l.2 :=
      (hwf t (hLmem t htm) l.2 hl2mem).mpr htK
    have hconnS : connKey conns ip = nodeNameKey l.2 := htc.trans htS
    have hids : ∃ e ∈ ids, e.1 = parseId l.2 :=
      ⟨ids.getD ip default, getD_mem hip, hik⟩
    have hconns : ∃ e ∈ conns, e.1 = nodeNameKey l.2 :=
      ⟨conns.getD ip default, getD_mem (h1 ▸ hip), hconnS⟩
    obtain ⟨hl1, hk1, hm1, hv1⟩ := dictAppend_keys_present (parseId l.1) hids
    obtain ⟨hl2, hk2, _, _⟩ := dictAppend_keys_present l hconns
    refine ⟨by rw [hl1, hl2, h1], ?_, ?_, ?_⟩
    · intro i hi
      rw [hl1] at hi
      obtain ⟨t2, ht2m, ht2k, ht2c, ht2p⟩ := h2 i hi
      refine ⟨t2, hLmem t2 ht2m, ?_, ?_, ?_⟩
      · show ((dictAppend ids (parseId l.2) (parseId l.1)).getD i default).1 = _
        rw [hk1 i hi]
        exact ht2k
      · show ((dictAppend conns (nodeNameKey l.2) l).getD i default).1 = _
        rw [hk2 i (h1 ▸ hi)]
        exact ht2c
      · intro l2 hl2m he
        rcases List.mem_append.mp hl2m with hl2m | hl2m
        · exact hm1 i hi _ (ht2p l2 hl2m he)
        · have hl2eq : l2 = l := by simpa using hl2m
          subst hl2eq
          have hkeyi : idKey ids i = parseId l2.2 := ht2k.trans he.symm
          have huniq : ∀ i2, i2 < ids.length →
              (ids.getD i2 default).1 = parseId l2.2 → i2 = i := by
            intro i2 hi2 hk2i
            by_contra hne
            exact h4 i2 i hi2 hi hne (hk2i.trans hkeyi.symm)
          exact hv1 i hi hkeyi huniq
    · intro l2 hl2m
      rcases List.mem_append.mp hl2m with hl2m | hl2m
      · obtain ⟨i, hi, hk⟩ := h3 l2 hl2m
        refine ⟨i, by rw [hl1]; exact hi, ?_⟩
        show ((dictAppend ids (parseId l.2) (parseId l.1)).getD i default).1 = _
        rw [hk1 i hi]
        exact hk
      · have hl2eq : l2 = l := by simpa using hl2m
        subst hl2eq
        refine ⟨ip, by rw [hl1]; exact hip, ?_⟩
        show ((dictAppend ids (parseId l2.2) (parseId l2.1)).getD ip default).1 = _
        rw [hk1 ip hip]
        exact hik
    · intro i j hi hj hij
      rw [hl1] at hi hj
      show ((dictAppend ids (parseId l.2) (parseId l.1)).getD i default).1 ≠
        ((dictAppend ids (parseId l.2) (parseId l.1)).getD j default).1
      rw [hk1 i hi, hk1 j hj]
      exact h4 i j hi hj hij
  · -- fresh destination id: both dictionaries append a new entry at the end
    have habs2 : ¬∃ j, j < conns.length ∧ connKey conns j = nodeNameKey l.2 := by
      rintro ⟨j, hj, hjS⟩
      obtain ⟨t, htm, htk, htc, _⟩ := h2 j (h1 ▸ hj)
      have htS : nodeNameKey t = nodeNameKey l.2 := htc ▸ hjS
      have htK : parseId t = parseId l.2 :=
        (hwf t (hLmem t htm) l.2 hl2mem).mp htS
      exact hpres ⟨j, h1 ▸ hj, htk.trans htK⟩
    have heq1 : dictAppend ids (parseId l.2) (parseId l.1) =
        ids ++ [(parseId l.2, [parseId l.1])] := by
      refine dictAppend_absent _ ?_
      intro e he hek
      obtain ⟨i, hi, hgd⟩ := mem_pos he
      exact hpres ⟨i, hi, by rw [idKey, hgd]; exact hek⟩
    have heq2 : dictAppend conns (nodeNameKey l.2) l =
        conns ++ [(nodeNameKey l.2, [l])] := by
      refine dictAppend_absent _ ?_
      intro e he hek
      obtain ⟨j, hj, hgd⟩ := mem_pos he
      exact habs2 ⟨j, hj, by rw [connKey, hgd]; exact hek⟩
    rw [heq1, heq2]
    refine ⟨by simp [h1], ?_, ?_, ?_⟩
    · intro i hi
      simp only [List.length_append, List.length_singleton] at hi
      by_cases hilt : i < ids.length
      · obtain ⟨t2, ht2m, ht2k, ht2c, ht2p⟩ := h2 i hilt
        refine ⟨t2, hLmem t2 ht2m, ?_, ?_, ?_⟩
        · show ((ids ++ [(parseId l.2, [parseId l.1])]).getD i default).1 = _
          rw [getD_append_left hilt]
          exact ht2k
        · show ((conns ++ [(nodeNameKey l.2, [l])]).getD i default).1 = _
          rw [getD_append_left (h1 ▸ hilt)]
          exact ht2c
        · intro l2 hl2m he
          rcases List.mem_append.mp hl2m with hl2m | hl2m
          · show _ ∈ ((ids ++ [(parseId l.2, [parseId l.1])]).getD i default).2
            rw [getD_append_left hilt]
            exact ht2p l2 hl2m he
          · have hl2eq : l2 = l := by simpa using hl2m
            subst hl2eq
            exact absurd ⟨i, hilt, ht2k.trans he.symm⟩ hpres
      · have hieq : i = ids.length := by omega
        subst hieq
        refine ⟨l.2, hl2mem, ?_, ?_, ?_⟩
        · show ((ids ++ [(parseId l.2, [parseId l.1])]).getD ids.length default).1 = _
          rw [getD_append_last]
        · show ((conns ++ [(nodeNameKey l.2, [l])]).getD ids.length default).1 = _
          rw [h1, getD_append_last]
        · intro l2 hl2m he
          show _ ∈ ((ids ++ [(parseId l.2, [parseId l.1])]).getD ids.length default).2
          rw [getD_append_last]
          rcases List.mem_append.mp hl2m with hl2m | hl2m
          · obtain ⟨i2, hi2, hk2i⟩ := h3 l2 hl2m
            exact absurd ⟨i2, hi2, hk2i.trans he⟩ hpres
          · have hl2eq : l2 = l := by simpa using hl2m
            subst hl2eq
            simp
    · intro l2 hl2m
      rcases List.mem_append.mp hl2m with hl2m | hl2m
      · obtain ⟨i, hi, hk⟩ := h3 l2 hl2m
        refine ⟨i, by simp; omega, ?_⟩
        show ((ids ++ [(parseId l.2, [parseId l.1])]).getD i default).1 = _
        rw [getD_append_left hi]
        exact hk
      · have hl2eq : l2 = l := by simpa using hl2m
        subst hl2eq
        refine ⟨ids.length, by simp, ?_⟩
        show ((ids ++ [(parseId l2.2, [parseId l2.1])]).getD ids.length default).1 = _
        rw [getD_append_last]
    · intro i j hi hj hij
      simp only [List.length_append, List.length_singleton] at hi hj
      show ((ids ++ [(parseId l.2, [parseId l.1])]).getD i default).1 ≠
        ((ids ++ [(parseId l.2, [parseId l.1])]).getD j default).1
      by_cases hilt : i < ids.length
      · by_cases hjlt : j < ids.length
        · rw [getD_append_left hilt, getD_append_left hjlt]
          exact h4 i j hilt hjlt hij
        · have : j = ids.length := by omega
          subst this
          rw [getD_append_left hilt, getD_append_last]
          intro hcon
          exact hpres ⟨i, hilt, hcon⟩
      · have : i = ids.length := by omega
        subst this
        have hjlt : j < ids.length := by omega
        rw [getD_append_last, getD_append_left hjlt]
        intro hcon
        exact hpres ⟨j, hjlt, hcon.symm⟩

theorem aligned_fold {links : List Link} (hwf : idKeyConsistent links) :
    ∀ (ls L : List Link) (st : List IdEntry × List ConnEntry),
    L ++ ls = links →
    aligned L st.1 st.2 →
    aligned (L ++ ls) (ls.foldl buildStep st).1 (ls.foldl buildStep st).2 := by
  intro ls
  induction ls with
  | nil => intro L st _ h; simpa using h
  | cons l rest ih =>
    intro L st hL h
    have hstep : aligned (L ++ [l]) (buildStep st l).1 (buildStep st l).2 := by
      refine aligned_buildStep l ?_ h
      intro t ht u hu
      have hsub : ∀ x ∈ (L ++ [l]).map (·.2), x ∈ allTags links := by
        intro x hx
        obtain ⟨y, hy, hyx⟩ := List.mem_map.mp hx
        have hyl : y ∈ links := by
          rw [← hL]
          rcases List.mem_append.mp hy with hy | hy
          · exact List.mem_append_left _ hy
          · have : y = l := by simpa using hy
            subst this
            exact List.mem_append_right _ (List.mem_cons_self _ _)
        rw [allTags]
        exact List.mem_append_right _ (hyx ▸ List.mem_map_of_mem _ hyl)
      exact hwf t (hsub t ht) u (hsub u hu)
    have hL' : (L ++ [l]) ++ rest = links := by
      rw [← hL, List.append_assoc]
      rfl
    have := ih (L ++ [l]) (buildStep st l) hL' hstep
    rw [List.append_assoc] at this
    simpa using this

theorem buildDicts_aligned {links : List Link} (hwf : idKeyConsistent links) :
    aligned links (buildDicts links).1 (buildDicts links).2 := by
  have h0 : aligned [] ([] : List IdEntry) ([] : List ConnEntry) := by
    refine ⟨rfl, ?_, ?_, ?_⟩
    · intro i hi; simp at hi
    · intro l hl; simp at hl
    · intro i j hi; simp at hi
  have := aligned_fold hwf links [] ([], []) rfl h0
  simpa [buildDicts] using this

/-! ### Phase C never finds a root node: the `str`-vs-`int` comparison -/

theorem pyEq_str_int (s : String) (n : Nat) :
    pyEq (Val.vstr s) (Val.vint n) = false := rfl

theorem enumFindAux_none (nl : List String) :
    ∀ (p c i : Nat), (enumFindAux nl p c i).1 = none := by
  induction nl with
  | nil => intro p c i; rfl
  | cons name rest ih =>
    intro p c i
    rw [enumFindAux]
    rw [pyEq_str_int]
    simp only [Bool.false_eq_true, if_false]
    exact ih (p + 1) c p

theorem orphanPass_fst (ids : List IdEntry) (nl : List String) :
    ∀ (P : List Nat) (unf : List (Nat × String)) (idx : Nat),
    (orphanPass ids nl P unf idx).1 = unf := by
  intro P
  induction P with
  | nil => intro unf idx; rfl
  | cons c rest ih =>
    intro unf idx
    rw [orphanPass]
    split_ifs with hany
    · exact ih unf idx
    · rcases he : enumFindAux nl 0 c idx with ⟨found, p⟩
      have : found = none := by
        have := enumFindAux_none nl 0 c idx
        rw [he] at this
        exact this
      subst this
      exact ih unf p

theorem orphanLoop_some {res : List (Nat × String)} :
    ∀ (fuel index : Nat) (ids : List IdEntry) (nl : List String)
      (unf : List (Nat × String)),
    orphanLoop fuel index ids nl unf = some res → res = unf := by
  intro fuel
  induction fuel with
  | zero => intro index ids nl unf h; exact absurd h (by simp [orphanLoop])
  | succ fuel ih =>
    intro index ids nl unf h
    rw [orphanLoop] at h
    split_ifs at h with hlt
    · rcases hp : orphanPass ids nl (ids.getD index default).2 unf index
        with ⟨unf2, idx2⟩
      rw [hp] at h
      have hu : unf2 = unf := by
        have := orphanPass_fst ids nl (ids.getD index default).2 unf index
        rw [hp] at this
        exact this
      rw [← hu]
      exact ih (idx2 + 1) ids nl unf2 h
    · cases h
      rfl

/-- When `_sort_node_graph` terminates, the returned ordered dictionary is
exactly the stabilised connection list: phase C prepends nothing. -/
theorem sort_node_graph_eq {node_list : List String} {links : List Link}
    {fuel : Nat} {order : List ConnEntry}
    (h : sort_node_graph node_list links fuel = some order) :
    ∃ ids2, sortLoop fuel 0 (buildDicts links).1 (buildDicts links).2 =
      some (ids2, order) := by
  rw [sort_node_graph] at h
  rcases hs : sortLoop fuel 0 (buildDicts links).1 (buildDicts links).2
    with _ | ⟨ids2, conns2⟩
  · rw [hs] at h; exact absurd h (by simp)
  · rw [hs] at h
    simp only at h
    rcases ho : orphanLoop fuel 0 ids2 node_list [] with _ | unf
    · rw [ho] at h; exact absurd h (by simp)
    · rw [ho] at h
      have : unf = [] := orphanLoop_some fuel 0 ids2 node_list [] ho
      subst this
      simp only [List.foldl_nil] at h
      cases h
      exact ⟨ids2, rfl⟩

theorem mem_map_fst_iff {conns : List ConnEntry} {k : String} :
    k ∈ conns.map Prod.fst ↔ ∃ i, i < conns.length ∧ connKey conns i = k := by
  constructor
  · intro h
    obtain ⟨e, he, hek⟩ := List.mem_map.mp h
    obtain ⟨i, hi, hgd⟩ := mem_pos he
    exact ⟨i, hi, by rw [connKey, hgd]; exact hek⟩
  · rintro ⟨i, hi, hck⟩
    rw [← hck, connKey]
    exact List.mem_map_of_mem _ (getD_mem hi)

theorem connKey_indexOf {order : List ConnEntry} {k : String}
    (h : k ∈ order.map Prod.fst) :
    (order.map Prod.fst).indexOf k < order.length ∧
    connKey order ((order.map Prod.fst).indexOf k) = k := by
  have hlt := List.indexOf_lt_length.mpr h
  have hlen : (order.map Prod.fst).length = order.length := List.length_map _ _
  refine ⟨hlen ▸ hlt, ?_⟩
  have hval := List.getElem_indexOf hlt
  rw [List.getElem_map] at hval
  rw [connKey, List.getD_eq_getElem?_getD,
    List.getElem?_eq_getElem (by omega : (order.map Prod.fst).indexOf k < order.length)]
  exact hval

/-- Core order-correctness fact about `_sort_node_graph`: when the
stabilisation loop terminates, every link whose source node has an entry in
the returned order (i.e. is itself a link destination) is scheduled
strictly before its destination node. -/
theorem sort_respects_deps {node_list : List String} {links : List Link}
    {fuel : Nat} {order : List ConnEntry}
    (hwf : idKeyConsistent links)
    (hrun : sort_node_graph node_list links fuel = some order)
    {l : Link} (hl : l ∈ links)
    (hne : nodeNameKey l.1 ≠ nodeNameKey l.2)
    (hs : nodeNameKey l.1 ∈ order.map Prod.fst) :
    nodeNameKey l.2 ∈ order.map Prod.fst ∧
    (order.map Prod.fst).indexOf (nodeNameKey l.1) <
      (order.map Prod.fst).indexOf (nodeNameKey l.2) := by
  obtain ⟨ids2, hsl⟩ := sort_node_graph_eq hrun
  have hbase := buildDicts_aligned hwf
  obtain ⟨hal, hnl⟩ := sortLoop_post fuel 0 (buildDicts links).1
    (buildDicts links).2 ids2 order hsl hbase
    (fun i hi => absurd hi (Nat.not_lt_zero i))
  obtain ⟨h1, h2, h3, h4⟩ := hal
  have hsrc_tag : l.1 ∈ allTags links := by
    rw [allTags]
    exact List.mem_append_left _ (List.mem_map_of_mem _ hl)
  have hdst_tag : l.2 ∈ allTags links := by
    rw [allTags]
    exact List.mem_append_right _ (List.mem_map_of_mem _ hl)
  have hdests_tag : ∀ t ∈ links.map (·.2), t ∈ allTags links := by
    intro t ht
    rw [allTags]
    exact List.mem_append_right _ ht
  -- the destination key is always present in the order
  have hdmem : nodeNameKey l.2 ∈ order.map Prod.fst := by
    obtain ⟨i, hi, hik⟩ := h3 l hl
    obtain ⟨t, htm, htk, htc, _⟩ := h2 i hi
    have htK : parseId t = parseId l.2 := htk ▸ hik
    have htS : nodeNameKey t = nodeNameKey l.2 :=
      (hwf t (hdests_tag t htm) l.2 hdst_tag).mpr htK
    exact mem_map_fst_iff.mpr ⟨i, h1 ▸ hi, htc.trans htS⟩
  refine ⟨hdmem, ?_⟩
  obtain ⟨hjs_lt, hjs_key⟩ := connKey_indexOf hs
  obtain ⟨hjd_lt, hjd_key⟩ := connKey_indexOf hdmem
  have hjs_lt' : (order.map Prod.fst).indexOf (nodeNameKey l.1) < ids2.length :=
    h1 ▸ hjs_lt
  have hjd_lt' : (order.map Prod.fst).indexOf (nodeNameKey l.2) < ids2.length :=
    h1 ▸ hjd_lt
  -- the id key at the source position is `parseId l.1`
  have hjs_id : idKey ids2 ((order.map Prod.fst).indexOf (nodeNameKey l.1)) =
      parseId l.1 := by
    obtain ⟨t, htm, htk, htc, _⟩ := h2 _ hjs_lt'
    have htS : nodeNameKey t = nodeNameKey l.1 := htc ▸ hjs_key
    have htK : parseId t = parseId l.1 :=
      (hwf t (hdests_tag t htm) l.1 hsrc_tag).mp htS
    exact htk.trans htK
  -- the id key at the destination position is `parseId l.2`,
  -- and its predecessor list contains `parseId l.1`
  have hjd_facts : idKey ids2 ((order.map Prod.fst).indexOf (nodeNameKey l.2)) =
      parseId l.2 ∧
      parseId l.1 ∈ idPreds ids2
        ((order.map Prod.fst).indexOf (nodeNameKey l.2)) := by
    obtain ⟨t, htm, htk, htc, htp⟩ := h2 _ hjd_lt'
    have htS : nodeNameKey t = nodeNameKey l.2 := htc ▸ hjd_key
    have htK : parseId t = parseId l.2 :=
      (hwf t (hdests_tag t htm) l.2 hdst_tag).mp htS
    exact ⟨htk.trans htK, htp l hl htK.symm⟩
  have hne_idx : (order.map Prod.fst).indexOf (nodeNameKey l.1) ≠
      (order.map Prod.fst).indexOf (nodeNameKey l.2) := by
    intro he
    exact hne (hjs_key.symm.trans (he ▸ hjd_key))
  by_contra hcon
  have hlt : (order.map Prod.fst).indexOf (nodeNameKey l.2) <
      (order.map Prod.fst).indexOf (nodeNameKey l.1) := by omega
  exact hnl _ hjd_lt' (parseId l.1) hjd_facts.2 _ hlt hjs_lt' hjs_id

/-- The key sequence of the returned order consists exactly of the
"id:name" keys of the link destinations: root nodes (no inbound link) and
isolated nodes never obtain an entry. -/
theorem sort_keys_iff {node_list : List String} {links : List Link}
    {fuel : Nat} {order : List ConnEntry}
    (hwf : idKeyConsistent links)
    (hrun : sort_node_graph node_list links fuel = some order) :
    ∀ k, k ∈ order.map Prod.fst ↔ ∃ l ∈ links, nodeNameKey l.2 = k := by
  obtain ⟨ids2, hsl⟩ := sort_node_graph_eq hrun
  have hbase := buildDicts_aligned hwf
  obtain ⟨hal, _⟩ := sortLoop_post fuel 0 (buildDicts links).1
    (buildDicts links).2 ids2 order hsl hbase
    (fun i hi => absurd hi (Nat.not_lt_zero i))
  obtain ⟨h1, h2, h3, _⟩ := hal
  have hdests_tag : ∀ t ∈ links.map (·.2), t ∈ allTags links := by
    intro t ht
    rw [allTags]
    exact List.mem_append_right _ ht
  intro k
  constructor
  · intro hk
    obtain ⟨i, hi, hck⟩ := mem_map_fst_iff.mp hk
    obtain ⟨t, htm, _, htc, _⟩ := h2 i (h1 ▸ hi)
    obtain ⟨l, hl, hlt⟩ := List.mem_map.mp htm
    exact ⟨l, hl, by rw [hlt, ← htc]; exact hck⟩
  · rintro ⟨l, hl, hk⟩
    obtain ⟨i, hi, hik⟩ := h3 l hl
    obtain ⟨t, htm, htk, htc, _⟩ := h2 i hi
    have htK : parseId t = parseId l.2 := htk ▸ hik
    have htS : nodeNameKey t = nodeNameKey l.2 :=
      (hwf t (hdests_tag t htm) l.2 (hdests_tag l.2
        (List.mem_map_of_mem _ hl))).mpr htK
    exact mem_map_fst_iff.mpr ⟨i, h1 ▸ hi, htc.trans (htS.trans hk)⟩

/-! ### Non-termination of the stabilisation loop on a two-cycle

The concrete graph A→B, B→A (`_callback_link` admits it: the types of the
two links match port-wise and the two destinations differ).  The swap loop
oscillates between two states, so it never exits, for any fuel. -/

/-- Link A→B of the two-cycle. -/
def cycAB : Link := ("1:A:TimeSeries:Output01", "2:B:TimeSeries:Input01")

/-- Link B→A of the two-cycle. -/
def cycBA : Link := ("2:B:TimeSeries:Output01", "1:A:TimeSeries:Input01")

/-- The cyclic link list. -/
def cycLinks : List Link := [cycAB, cycBA]

/-- `node_id_dict` of the two-cycle, as phase A builds it. -/
def cycIds0 : List IdEntry := [(2, [1]), (1, [2])]

/-- Its swapped companion after the first pass. -/
def cycIds1 : List IdEntry := [(1, [2]), (2, [1])]

/-- `node_connection_dict` of the two-cycle. -/
def cycConns0 : List ConnEntry := [("2:B", [cycAB]), ("1:A", [cycBA])]

/-- Its swapped companion. -/
def cycConns1 : List ConnEntry := [("1:A", [cycBA]), ("2:B", [cycAB])]

theorem buildDicts_cyc : buildDicts cycLinks = (cycIds0, cycConns0) := by
  decide

theorem sortLoop_cyc_step0 (n : Nat) :
    sortLoop (n + 1) 0 cycIds0 cycConns0 = sortLoop n 0 cycIds1 cycConns1 :=
  rfl

theorem sortLoop_cyc_step1 (n : Nat) :
    sortLoop (n + 1) 0 cycIds1 cycConns1 = sortLoop n 0 cycIds0 cycConns0 :=
  rfl

theorem sortLoop_cyc_none (n : Nat) :
    sortLoop n 0 cycIds0 cycConns0 = none ∧
    sortLoop n 0 cycIds1 cycConns1 = none := by
  induction n with
  | zero => exact ⟨rfl, rfl⟩
  | succ n ih =>
    exact ⟨(sortLoop_cyc_step0 n).trans ih.2, (sortLoop_cyc_step1 n).trans ih.1⟩

/-- `_sort_node_graph` never returns on the two-cycle, whatever the
iteration bound. -/
theorem sort_node_graph_cyc_none (node_list : List String) (fuel : Nat) :
    sort_node_graph node_list cycLinks fuel = none := by
  rw [sort_node_graph, buildDicts_cyc]
  rw [(sortLoop_cyc_none fuel).1]

/-! ### Deletion lemmas (`_callback_mv_key_del`) -/

theorem key_del_fold_sublist (n : String) :
    ∀ (iter acc : List Link),
    (iter.foldl
      (fun a li => if touches n li then a.erase li else a) acc).Sublist acc := by
  intro iter
  induction iter with
  | nil => intro acc; exact List.Sublist.refl acc
  | cons w rest ih =>
    intro acc
    rw [List.foldl_cons]
    by_cases hw : touches n w
    · rw [if_pos hw]
      exact (ih (acc.erase w)).trans (List.erase_sublist w acc)
    · rw [if_neg hw]
      exact ih acc

theorem key_del_links_sublist (n : String) (links : List Link) :
    (key_del_links n links).Sublist links :=
  key_del_fold_sublist n links links

theorem key_del_fold_count {n : String} {v : Link} (hv : touches n v = true) :
    ∀ (iter acc : List Link), acc.count v ≤ iter.count v →
    v ∉ iter.foldl (fun a li => if touches n li then a.erase li else a) acc := by
  intro iter
  induction iter with
  | nil =>
    intro acc hc
    rw [List.foldl_nil]
    exact List.count_eq_zero.mp (Nat.le_zero.mp (by simpa using hc))
  | cons w rest ih =>
    intro acc hc
    rw [List.foldl_cons]
    by_cases hwv : w = v
    · subst hwv
      rw [if_pos hv]
      refine ih (acc.erase w) ?_
      rw [List.count_erase_self]
      rw [List.count_cons_self] at hc
      omega
    · have hcount : acc.count v ≤ rest.count v := by
        rw [List.count_cons_of_ne (fun h => hwv h.symm)] at hc
        exact hc
      by_cases hw : touches n w
      · rw [if_pos hw]
        refine ih (acc.erase w) ?_
        rw [List.count_erase_of_ne (fun h => hwv h.symm)]
        exact hcount
      · rw [if_neg hw]
        exact ih acc hcount

/-- Every link touching the deleted node is gone from the resulting list. -/
theorem key_del_removes {n : String} {links : List Link} :
    ∀ l ∈ key_del_links n links, touches n l = false := by
  intro l hl
  by_contra hcon
  have hv : touches n l = true := by
    cases h : touches n l
    · exact absurd h hcon
    · rfl
  exact key_del_fold_count hv links links (Nat.le_refl _) hl

theorem key_del_fold_keeps {n : String} {l : Link} (hl : touches n l = false) :
    ∀ (iter acc : List Link), l ∈ acc →
    l ∈ iter.foldl (fun a li => if touches n li then a.erase li else a) acc := by
  intro iter
  induction iter with
  | nil => intro acc h; exact h
  | cons w rest ih =>
    intro acc h
    rw [List.foldl_cons]
    by_cases hw : touches n w
    · rw [if_pos hw]
      refine ih (acc.erase w) ?_
      have hne : l ≠ w := by
        intro he
        rw [he, hw] at hl
        exact absurd hl (by simp)
      exact (List.mem_erase_of_ne hne).mpr h
    · rw [if_neg hw]
      exact ih acc h

/-- Every link not touching the deleted node survives the deletion loop. -/
theorem key_del_keeps {n : String} {links : List Link} :
    ∀ l ∈ links, touches n l = false → l ∈ key_del_links n links :=
  fun _ hl hnt => key_del_fold_keeps hnt links links hl

/-! ### Fan-in and typing invariants of the link callbacks -/

theorem callback_link_fanIn {links : List Link} (s d : Tag)
    (h : fanInOK links) : fanInOK (callback_link links s d) := by
  rw [callback_link]
  split_ifs with hty hlen hdup
  · -- first link inserted into the empty list
    have : links = [] := List.eq_nil_of_length_eq_zero (by simpa using hlen)
    subst this
    simp [fanInOK]
  · -- destination free: append, destinations stay pairwise distinct
    have hnd : d ∉ links.map (·.2) := by
      intro hmem
      obtain ⟨l, hl, hld⟩ := List.mem_map.mp hmem
      have : links.any (fun node_link => d == node_link.2) = true :=
        List.any_eq_true.mpr ⟨l, hl, by simp [hld]⟩
      simp [this] at hdup
    rw [fanInOK, List.map_append]
    rw [List.nodup_append]
    refine ⟨h, by simp, ?_⟩
    intro a ha hb
    have had : a = d := by simpa using hb
    exact hnd (had ▸ ha)
  · exact h
  · exact h

theorem key_del_fanIn {links : List Link} (n : String)
    (h : fanInOK links) : fanInOK (key_del_links n links) :=
  List.Nodup.sublist (List.Sublist.map _ (key_del_links_sublist n links)) h

theorem erase_fanIn {links : List Link} (l : Link)
    (h : fanInOK links) : fanInOK (links.erase l) :=
  List.Nodup.sublist (List.Sublist.map _ (List.erase_sublist l links)) h

theorem applyOp_fanIn {links : List Link} (op : EditorOp)
    (h : fanInOK links) : fanInOK (applyOp links op) := by
  cases op with
  | addLink s d => exact callback_link_fanIn s d h
  | delNode n => exact key_del_fanIn n h
  | delLink l => exact erase_fanIn l h

theorem callback_link_unchanged_of_mismatch {links : List Link} {s d : Tag}
    (h : portTypeOf s ≠ portTypeOf d) : callback_link links s d = links := by
  rw [callback_link]
  have : (portTypeOf s == portTypeOf d) = false := by simpa using h
  rw [this]
  simp

theorem callback_link_wellTyped {links : List Link} (s d : Tag)
    (h : wellTyped links) : wellTyped (callback_link links s d) := by
  rw [callback_link]
  split_ifs with hty hlen hdup
  · intro l hl
    have : l = (s, d) := by
      have : links = [] := List.eq_nil_of_length_eq_zero (by simpa using hlen)
      rw [this] at hl
      simpa using hl
    rw [this]
    simpa using hty
  · intro l hl
    rcases List.mem_append.mp hl with hl | hl
    · exact h l hl
    · have : l = (s, d) := by simpa using hl
      rw [this]
      simpa using hty
  · exact h
  · exact h

/-! ### Driver lemmas (`update_node_info`) -/

theorem dictSet_same (d : Dict) (k : String) (v : Val) :
    dictSet d k v k = some v := if_pos rfl

theorem dictSet_other (d : Dict) {k q : String} (v : Val) (h : q ≠ k) :
    dictSet d k v q = d q := if_neg h

theorem driver_run_other {upd : UpdateFn} {conn_dict : List ConnEntry}
    {data res : Dict} {y k : String} (h : k ≠ y) :
    (driver_run upd conn_dict data res y).1 k = data k ∧
    (driver_run upd conn_dict data res y).2 k = res k := by
  rw [driver_run]
  cases upd (tagPart y 0) (tagPart y 1)
      (((conn_dict.find? (fun e => e.1 == y)).map (fun e => e.2)).getD [])
      data res with
  | none => exact ⟨rfl, rfl⟩
  | some dr => exact ⟨dictSet_other data dr.1 h, dictSet_other res dr.2 h⟩

theorem driver_step_other {upd : UpdateFn} {conn_dict : List ConnEntry}
    {st : Dict × Dict} {y k : String} (h : y ≠ k) :
    (driver_step upd conn_dict st y).1 k = st.1 k ∧
    (driver_step upd conn_dict st y).2 k = st.2 k := by
  have hk : k ≠ y := Ne.symm h
  rw [driver_step]
  cases hin : st.1 y with
  | none =>
    obtain ⟨h1, h2⟩ :=
      @driver_run_other upd conn_dict (dictSet st.1 y Val.vnone) st.2 y k hk
    exact ⟨h1.trans (dictSet_other st.1 Val.vnone hk), h2⟩
  | some v0 =>
    exact @driver_run_other upd conn_dict st.1 st.2 y k hk

theorem driver_step_fail {upd : UpdateFn} {conn_dict : List ConnEntry}
    {st : Dict × Dict} {x : String} {v w : Val}
    (hfail : ∀ c d r, upd (tagPart x 0) (tagPart x 1) c d r = none)
    (hd : st.1 x = some v) (hr : st.2 x = some w) :
    (driver_step upd conn_dict st x).1 x = some v ∧
    (driver_step upd conn_dict st x).2 x = some w := by
  rw [driver_step]
  simp only [hd]
  rw [driver_run, hfail]
  exact ⟨hd, hr⟩

theorem update_node_info_fold_other {upd : UpdateFn}
    {conn_dict : List ConnEntry} {z : String} :
    ∀ (rest : List String) (st : Dict × Dict), z ∉ rest →
    (rest.foldl (driver_step upd conn_dict) st).1 z = st.1 z ∧
    (rest.foldl (driver_step upd conn_dict) st).2 z = st.2 z := by
  intro rest
  induction rest with
  | nil => intro st _; exact ⟨rfl, rfl⟩
  | cons y ys ih =>
    intro st hz
    rw [List.foldl_cons]
    have hyz : y ≠ z := fun h => hz (h ▸ List.mem_cons_self _ _)
    obtain ⟨ha, hb⟩ := ih (driver_step upd conn_dict st y)
      (fun h => hz (List.mem_cons_of_mem _ h))
    obtain ⟨hc, hd⟩ := @driver_step_other upd conn_dict st y z hyz
    exact ⟨ha.trans hc, hb.trans hd⟩

/-- A node whose update capability always raises keeps its previous
entries in both shared dictionaries across a whole cycle. -/
theorem update_node_info_fail_stale {upd : UpdateFn}
    {conn_dict : List ConnEntry} {x : String} {v w : Val}
    (hfail : ∀ c d r, upd (tagPart x 0) (tagPart x 1) c d r = none) :
    ∀ (node_list : List String) (data res : Dict),
    data x = some v → res x = some w →
    (update_node_info upd conn_dict node_list data res).1 x = some v ∧
    (update_node_info upd conn_dict node_list data res).2 x = some w := by
  intro node_list
  induction node_list with
  | nil => intro data res hd hr; exact ⟨hd, hr⟩
  | cons y ys ih =>
    intro data res hd hr
    rw [update_node_info, List.foldl_cons]
    by_cases hyx : y = x
    · rw [hyx]
      obtain ⟨ha, hb⟩ :=
        @driver_step_fail upd conn_dict (data, res) x v w hfail hd hr
      exact ih _ _ ha hb
    · obtain ⟨ha, hb⟩ := @driver_step_other upd conn_dict (data, res) y x hyx
      exact ih _ _ (ha.trans hd) (hb.trans hr)

/-- A node whose update capability succeeds is written into both shared
dictionaries during the cycle, regardless of other nodes failing. -/
theorem update_node_info_success {upd : UpdateFn}
    {conn_dict : List ConnEntry} {z : String} {dz rz : Val}
    (hsucc : ∀ c d r, upd (tagPart z 0) (tagPart z 1) c d r = some (dz, rz)) :
    ∀ (node_list : List String) (data res : Dict),
    node_list.Nodup → z ∈ node_list →
    (update_node_info upd conn_dict node_list data res).1 z = some dz ∧
    (update_node_info upd conn_dict node_list data res).2 z = some rz := by
  intro node_list
  induction node_list with
  | nil => intro data res _ hz; exact absurd hz (by simp)
  | cons y ys ih =>
    intro data res hnd hz
    rw [update_node_info, List.foldl_cons]
    by_cases hyz : y = z
    · have hznotin : z ∉ ys := by
        rw [← hyz]
        exact (List.nodup_cons.mp hnd).1
      rw [hyz]
      have hstep : (driver_step upd conn_dict (data, res) z).1 z = some dz ∧
          (driver_step upd conn_dict (data, res) z).2 z = some rz := by
        cases hin : (data, res).1 z with
        | none =>
          have he : driver_step upd conn_dict (data, res) z =
              driver_run upd conn_dict (dictSet (data, res).1 z Val.vnone)
                (data, res).2 z := by
            rw [driver_step, hin]
          rw [he, driver_run, hsucc]
          exact ⟨dictSet_same _ z dz, dictSet_same _ z rz⟩
        | some v =>
          have he : driver_step upd conn_dict (data, res) z =
              driver_run upd conn_dict (data, res).1 (data, res).2 z := by
            rw [driver_step, hin]
          rw [he, driver_run, hsucc]
          exact ⟨dictSet_same _ z dz, dictSet_same _ z rz⟩
      obtain ⟨ha, hb⟩ := update_node_info_fold_other ys
        (driver_step upd conn_dict (data, res) z) hznotin
      exact ⟨ha.trans hstep.1, hb.trans hstep.2⟩
    · have hzys : z ∈ ys := by
        rcases List.mem_cons.mp hz with h | h
        · exact absurd h.symm hyz
        · exact h
      exact ih _ _ (List.nodup_cons.mp hnd).2 hzys

/-! ### Snapshot round-trip lemmas -/

theorem find?_map_self {f : String → ExportEntry} {nl : List String}
    {nn : String} (h : nn ∈ nl) :
    (nl.map (fun m => (m, f m))).find? (fun e => e.1 == nn) =
      some (nn, f nn) := by
  induction nl with
  | nil => exact absurd h (by simp)
  | cons m rest ih =>
    rw [List.map_cons]
    by_cases hm : m = nn
    · subst hm
      rw [List.find?_cons_of_pos _ (by simp)]
    · rw [List.find?_cons_of_neg _ (by simpa using hm)]
      refine ih ?_
      rcases List.mem_cons.mp h with h2 | h2
      · exact absurd h2.symm hm
      · exact h2

theorem importStep_applied {entries : List (String × ExportEntry)}
    {g : String → ExportEntry} :
    ∀ (ls : List String) (c0 : Nat) (a0 : List (Nat × NodeSetting)),
    (∀ nn ∈ ls, entries.find?
      (fun (e : String × ExportEntry) => e.1 == nn) = some (nn, g nn)) →
    (∀ nn ∈ ls, lookupVal (g nn).setting "ver" ≠ none) →
    (∀ nn ∈ ls, lookupVal (g nn).setting "pos" ≠ none) →
    ∃ c, ls.foldl (importStep entries) (Except.ok (c0, a0)) =
      Except.ok (c, a0 ++ ls.map (fun nn => (parseId nn, (g nn).setting))) := by
  intro ls
  induction ls with
  | nil => intro c0 a0 _ _ _; exact ⟨c0, by simp⟩
  | cons nn rest ih =>
    intro c0 a0 hfind hver hpos
    obtain ⟨v, hv⟩ := Option.ne_none_iff_exists'.mp
      (hver nn (List.mem_cons_self _ _))
    obtain ⟨p, hp⟩ := Option.ne_none_iff_exists'.mp
      (hpos nn (List.mem_cons_self _ _))
    rw [List.foldl_cons]
    have hstep : importStep entries (Except.ok (c0, a0)) nn =
        Except.ok (bumpId c0 nn, a0 ++ [(parseId nn, (g nn).setting)]) := by
      rw [importStep, importNode]
      rw [hfind nn (List.mem_cons_self _ _)]
      simp only [hv, hp]
    rw [hstep]
    obtain ⟨c, hc⟩ := ih (bumpId c0 nn)
      (a0 ++ [(parseId nn, (g nn).setting)])
      (fun m hm => hfind m (List.mem_cons_of_mem _ hm))
      (fun m hm => hver m (List.mem_cons_of_mem _ hm))
      (fun m hm => hpos m (List.mem_cons_of_mem _ hm))
    refine ⟨c, ?_⟩
    rw [hc]
    simp

/-- Exporting a dashboard and re-importing it restores the node list, the
link list, the recomputed connection dictionary, and replays each node's
exported settings verbatim — provided every exported setting dict has the
'ver' and 'pos' keys the import loop reads. -/
theorem import_export_roundtrip (node_list : List String) (links : List Link)
    (config : Val) (getSetting : String → String → NodeSetting)
    (node_id0 fuel : Nat)
    (hver : ∀ nn ∈ node_list,
      lookupVal (getSetting (tagPart nn 1) (tagPart nn 0)) "ver" ≠ none)
    (hpos : ∀ nn ∈ node_list,
      lookupVal (getSetting (tagPart nn 1) (tagPart nn 0)) "pos" ≠ none) :
    ∃ out, callback_file_import (callback_file_export node_list links config
        getSetting) node_id0 fuel = Except.ok out ∧
      out.node_list = node_list ∧
      out.link_list = links ∧
      out.conn = sort_node_graph node_list links fuel ∧
      out.applied = node_list.map (fun nn =>
        (parseId nn, getSetting (tagPart nn 1) (tagPart nn 0))) := by
  have hfind : ∀ nn ∈ node_list,
      (callback_file_export node_list links config getSetting).entries.find?
        (fun (e : String × ExportEntry) => e.1 == nn) =
      some (nn,
        { id := tagPart nn 0
          name := tagPart nn 1
          setting := getSetting (tagPart nn 1) (tagPart nn 0) }) := by
    intro nn hnn
    rw [callback_file_export]
    exact find?_map_self hnn
  obtain ⟨c, hc⟩ := importStep_applied node_list node_id0 [] hfind hver hpos
  have hsd : (callback_file_export node_list links config
      getSetting).node_list = node_list := rfl
  refine ⟨{ final_node_id := c
            node_list := node_list
            link_list := links
            applied := [] ++ node_list.map (fun nn =>
              (parseId nn, getSetting (tagPart nn 1) (tagPart nn 0)))
            conn := sort_node_graph node_list links fuel },
    ?_, rfl, rfl, rfl, by simp⟩
  rw [callback_file_import, hsd, hc]
  rfl

/-! ### Concrete graphs used by the claim witnesses and counterexamples -/

/-- Link A→B (TimeSeries output of node 1 into TimeSeries input of node 2). -/
def chainAB : Link := ("1:A:TimeSeries:Output01", "2:B:TimeSeries:Input01")

/-- Link B→C. -/
def chainBC : Link := ("2:B:TimeSeries:Output01", "3:C:TimeSeries:Input01")

/-- The chain graph A→B→C. -/
def chainLinks : List Link := [chainAB, chainBC]

/-- Node list of the chain graph. -/
def chainNodes : List String := ["1:A", "2:B", "3:C"]

/-- The connection dictionary of the one-link graph A→B. -/
def connDemo : List ConnEntry := [("2:B", [chainAB])]

/-- Demo update capabilities: node name "A" produces the fresh value 100;
any other node reads its upstream producer's entry from `node_data_dict`
under the `':'.join(source.split(':')[:2])` key, exactly as the chart
nodes do. -/
def updDemo : UpdateFn := fun _ node_name conns data _ =>
  if node_name == "A" then some (Val.vint 100, Val.vnone)
  else
    match conns with
    | c :: _ => some ((data (nodeKeyOf c.1)).getD Val.vnone, Val.vnone)
    | [] => some (Val.vnone, Val.vnone)

/-- `node_data_dict` as a previous cycle left it: node 1:A had written 5. -/
def dataPrior : Dict := fun k => if k = "1:A" then some (Val.vint 5) else none

/-- Empty `node_result_dict`. -/
def resPrior : Dict := fun _ => none

/-- An update capability where the node named "F" always raises and every
other node returns the pair (1, 2). -/
def updFail : UpdateFn := fun _ node_name _ _ _ =>
  if node_name == "F" then none else some (Val.vint 1, Val.vint 2)

/-- Shared data map with a prior entry for the failing node 2:F. -/
def data7 : Dict := fun k => if k = "2:F" then some (Val.vint 9) else none

/-- Shared result map with a prior entry for the failing node 2:F. -/
def res7 : Dict := fun k => if k = "2:F" then some (Val.vint 8) else none

/-- Mutation sequence: add A→B, attempt C→B on the already-bound input
(rejected), add B→C, delete node 3:C. -/
def opsDemo : List EditorOp :=
  [EditorOp.addLink chainAB.1 chainAB.2,
   EditorOp.addLink "3:C:TimeSeries:Output01" chainAB.2,
   EditorOp.addLink chainBC.1 chainBC.2,
   EditorOp.delNode "3:C"]

/-! ### Claim C1 -/

/-- Claim C1, counterexample: in the cycle-free one-link graph A→B the
order returned by `_sort_node_graph` is the single destination entry
for node 2:B; the source node 1:A does not appear in the order at all, so
no index places it before its destination. -/
theorem C1_counterexample :
    sort_node_graph ["1:A", "2:B"] [chainAB] 3 = some [("2:B", [chainAB])] ∧
    nodeNameKey chainAB.1 ∉ ([("2:B", [chainAB])].map Prod.fst) := by
  decide

/-- Claim C1 (amended): when the stabilisation loop of `_sort_node_graph`
terminates and the graph's aliases are id-consistent, every link whose
source node itself appears in the returned order (equivalently, is itself
a link destination) is placed strictly before the link's destination node;
the destination node always appears.  Source nodes with no inbound links
are absent from the order. -/
theorem C1_claim {node_list : List String} {links : List Link}
    {fuel : Nat} {order : List ConnEntry}
    (hwf : idKeyConsistent links)
    (hrun : sort_node_graph node_list links fuel = some order)
    {l : Link} (hl : l ∈ links)
    (hne : nodeNameKey l.1 ≠ nodeNameKey l.2)
    (hs : nodeNameKey l.1 ∈ order.map Prod.fst) :
    nodeNameKey l.2 ∈ order.map Prod.fst ∧
    (order.map Prod.fst).indexOf (nodeNameKey l.1) <
      (order.map Prod.fst).indexOf (nodeNameKey l.2) :=
  sort_respects_deps hwf hrun hl hne hs

/-- Claim C1, witness: the chain A→B→C; its link B→C has source 2:B in the
order (B is a destination of A→B) and 2:B is scheduled before 3:C. -/
theorem C1_witness :
    (idKeyConsistent chainLinks ∧
     sort_node_graph chainNodes chainLinks 10 =
       some [("2:B", [chainAB]), ("3:C", [chainBC])] ∧
     chainBC ∈ chainLinks ∧
     nodeNameKey chainBC.1 ≠ nodeNameKey chainBC.2 ∧
     nodeNameKey chainBC.1 ∈
       ([("2:B", [chainAB]), ("3:C", [chainBC])].map Prod.fst)) ∧
    (nodeNameKey chainBC.2 ∈
       ([("2:B", [chainAB]), ("3:C", [chainBC])].map Prod.fst) ∧
     ([("2:B", [chainAB]), ("3:C", [chainBC])].map Prod.fst).indexOf
       (nodeNameKey chainBC.1) <
     ([("2:B", [chainAB]), ("3:C", [chainBC])].map Prod.fst).indexOf
       (nodeNameKey chainBC.2)) :=
  ⟨⟨by decide, by decide, by decide, by decide, by decide⟩,
   @C1_claim chainNodes chainLinks 10
     [("2:B", [chainAB]), ("3:C", [chainBC])] (by decide) (by decide)
     chainBC (by decide) (by decide) (by decide)⟩

/-! ### Claim C2 -/

/-- Claim C2, counterexample: nodes linked A→B but created in the order
[B, A]. The scheduler's order is the single entry [2:B] (A never appears),
while the driver walks the creation-ordered node list [2:B, 1:A]: B is
evaluated before A and reads A's previous-cycle value 5, not the value 100
that A writes in the same cycle. -/
theorem C2_counterexample :
    sort_node_graph ["2:B", "1:A"] [chainAB] 10 = some connDemo ∧
    "1:A" ∉ connDemo.map Prod.fst ∧
    (update_node_info updDemo connDemo ["2:B", "1:A"] dataPrior
      resPrior).1 "2:B" = some (Val.vint 5) ∧
    (update_node_info updDemo connDemo ["2:B", "1:A"] dataPrior
      resPrior).1 "1:A" = some (Val.vint 100) ∧
    Val.vint 5 ≠ Val.vint 100 := by
  decide

/-- Claim C2 (amended): the driver evaluates the nodes of `node_list` in
creation order, not in the scheduler's order.  In the A→B scenario the
consumer reads the producer's same-cycle value exactly when the producer
precedes it in `node_list`: with creation order [1:A, 2:B] the cycle
writes A's fresh value 100 and B reads that same value. -/
theorem C2_claim :
    (update_node_info updDemo connDemo ["1:A", "2:B"] dataPrior
      resPrior).1 "1:A" = some (Val.vint 100) ∧
    (update_node_info updDemo connDemo ["1:A", "2:B"] dataPrior
      resPrior).1 "2:B" = some (Val.vint 100) := by
  decide

/-! ### Claim C3 -/

/-- Claim C3, counterexample: a single node with zero links produces an
empty execution order, not an order of length 1, so the order is not a
permutation of the node set. -/
theorem C3_counterexample :
    sort_node_graph ["1:DefaultDataset"] [] 1 = some [] ∧
    ([] : List ConnEntry).length ≠ ["1:DefaultDataset"].length := by
  decide

/-- Claim C3 (amended): the execution order contains exactly the "id:name"
keys of the link destinations.  Root nodes (no inbound link) and isolated
nodes never appear: in particular a single node with zero links yields an
empty order. -/
theorem C3_claim {node_list : List String} {links : List Link}
    {fuel : Nat} {order : List ConnEntry}
    (hwf : idKeyConsistent links)
    (hrun : sort_node_graph node_list links fuel = some order) :
    ∀ k, k ∈ order.map Prod.fst ↔ ∃ l ∈ links, nodeNameKey l.2 = k :=
  sort_keys_iff hwf hrun

/-- Claim C3, witness: on the chain A→B→C the order keys are exactly the
destination keys 2:B and 3:C. -/
theorem C3_witness :
    (idKeyConsistent chainLinks ∧
     sort_node_graph chainNodes chainLinks 10 =
       some [("2:B", [chainAB]), ("3:C", [chainBC])]) ∧
    (∀ k, k ∈ ([("2:B", [chainAB]), ("3:C", [chainBC])].map Prod.fst) ↔
      ∃ l ∈ chainLinks, nodeNameKey l.2 = k) :=
  ⟨⟨by decide, by decide⟩,
   @C3_claim chainNodes chainLinks 10
     [("2:B", [chainAB]), ("3:C", [chainBC])] (by decide) (by decide)⟩

/-! ### Claim C4 -/

/-- Claim C4, counterexample: the two-cycle A→B, B→A has a working list of
length 2, so the claimed safe cap is 4 swap iterations; after 4 iterations
of the swap loop `_sort_node_graph` has not stabilised (and the code has
no cap and no PossibleCycle warning at all). -/
theorem C4_counterexample :
    (buildDicts cycLinks).1.length ^ 2 = 4 ∧
    sort_node_graph ["1:A", "2:B"] cycLinks 4 = none := by
  decide

/-- Claim C4 (amended): the stabilisation sort does not terminate on a
link set containing a directed cycle: on the two-cycle A→B, B→A the swap
loop oscillates forever, so for every iteration bound `_sort_node_graph`
fails to return; no iteration cap and no PossibleCycle warning exist in
the code. -/
theorem C4_claim (node_list : List String) (fuel : Nat) :
    sort_node_graph node_list cycLinks fuel = none :=
  sort_node_graph_cyc_none node_list fuel

/-! ### Claim C5 -/

/-- Claim C5: the fan-in invariant — no two links share a destination
port — is preserved by every link insertion (`_callback_link` refuses a
destination that is already bound), by node deletion, and by link
deletion, hence by any sequence of these mutations. -/
theorem C5_claim (links : List Link) (ops : List EditorOp)
    (h : fanInOK links) : fanInOK (applyOps links ops) := by
  rw [applyOps]
  induction ops generalizing links with
  | nil => exact h
  | cons op rest ih =>
    rw [List.foldl_cons]
    exact ih (applyOp links op) (applyOp_fanIn op h)

/-- Claim C5, witness: starting from the empty link list, adding A→B,
attempting C→B on the already-bound input, adding B→C and deleting node
3:C keeps the fan-in invariant. -/
theorem C5_witness : fanInOK ([] : List Link) ∧ fanInOK (applyOps [] opsDemo) :=
  ⟨by decide, C5_claim [] opsDemo (by decide)⟩

/-! ### Claim C6 -/

/-- Claim C6, counterexample: an attempt to link a TimeSeries output to a
Metadata input.  The specification's `try_add_link` contract returns
Err(TypeMismatch) for this input, but the source's callback returns no
error value to its caller — it returns None and only silently skips the
insertion — so no TypeMismatch error reaches the caller. -/
theorem C6_counterexample :
    try_add_link_spec [chainAB] "1:A:TimeSeries:Output01"
      "3:C:Metadata:Input01" = Except.error LinkError.typeMismatch ∧
    callback_link_full [chainAB] "1:A:TimeSeries:Output01"
      "3:C:Metadata:Input01" = ([chainAB], none) ∧
    (none : Option LinkError) ≠ some LinkError.typeMismatch :=
  ⟨rfl, rfl, by decide⟩

/-- Claim C6 (amended): an attempted link between ports of differing port
types is rejected silently — the link list is returned unchanged and the
callback returns no error value to its caller on any input (its Python
body has no return statement) — and the callback preserves the invariant
that every stored link connects ports of equal type. -/
theorem C6_claim (links : List Link) (s d : Tag) :
    (portTypeOf s ≠ portTypeOf d → callback_link links s d = links) ∧
    (callback_link_full links s d).2 = none ∧
    (wellTyped links → wellTyped (callback_link links s d)) :=
  ⟨fun h => callback_link_unchanged_of_mismatch h, rfl,
   fun h => callback_link_wellTyped s d h⟩

/-- Claim C6, witness: attempting to link a TimeSeries output to a
Metadata input leaves the one-link list unchanged and well-typed, with no
error value returned. -/
theorem C6_witness :
    (portTypeOf "1:A:TimeSeries:Output01" ≠
      portTypeOf "3:C:Metadata:Input01" ∧
     wellTyped [chainAB]) ∧
    (callback_link [chainAB] "1:A:TimeSeries:Output01"
      "3:C:Metadata:Input01" = [chainAB] ∧
     (callback_link_full [chainAB] "1:A:TimeSeries:Output01"
      "3:C:Metadata:Input01").2 = none ∧
     wellTyped (callback_link [chainAB] "1:A:TimeSeries:Output01"
      "3:C:Metadata:Input01")) :=
  ⟨⟨by decide, by decide⟩,
   ⟨(C6_claim [chainAB] "1:A:TimeSeries:Output01"
      "3:C:Metadata:Input01").1 (by decide),
    (C6_claim [chainAB] "1:A:TimeSeries:Output01"
      "3:C:Metadata:Input01").2.1,
    (C6_claim [chainAB] "1:A:TimeSeries:Output01"
      "3:C:Metadata:Input01").2.2 (by decide)⟩⟩

/-! ### Claim C7 -/

/-- Claim C7: a node whose update capability raises keeps its previous
entries in both shared dictionaries (stale-but-present), the failure never
escapes the cycle, and every other node of the list is still processed:
any node whose capability succeeds has its returned payloads written,
regardless of failures elsewhere in the same cycle. -/
theorem C7_claim (upd : UpdateFn) (conn_dict : List ConnEntry)
    (node_list : List String) (data res : Dict) (x : String) (v w : Val)
    (hfail : ∀ c d r, upd (tagPart x 0) (tagPart x 1) c d r = none)
    (hd : data x = some v) (hr : res x = some w) :
    ((update_node_info upd conn_dict node_list data res).1 x = some v ∧
     (update_node_info upd conn_dict node_list data res).2 x = some w) ∧
    (∀ z dz rz, node_list.Nodup → z ∈ node_list →
      (∀ c d r, upd (tagPart z 0) (tagPart z 1) c d r = some (dz, rz)) →
      (update_node_info upd conn_dict node_list data res).1 z = some dz ∧
      (update_node_info upd conn_dict node_list data res).2 z = some rz) :=
  ⟨update_node_info_fail_stale hfail node_list data res hd hr,
   fun _ _ _ hnd hz hsucc =>
     update_node_info_success hsucc node_list data res hnd hz⟩

/-- Claim C7, witness: in the cycle over [1:A, 2:F, 3:C] where 2:F always
raises, 2:F keeps its stale entries 9 and 8 while the later node 3:C is
still evaluated and written. -/
theorem C7_witness :
    ((update_node_info updFail [] ["1:A", "2:F", "3:C"] data7 res7).1 "2:F" =
        some (Val.vint 9) ∧
     (update_node_info updFail [] ["1:A", "2:F", "3:C"] data7 res7).2 "2:F" =
        some (Val.vint 8)) ∧
    ((update_node_info updFail [] ["1:A", "2:F", "3:C"] data7 res7).1 "3:C" =
        some (Val.vint 1) ∧
     (update_node_info updFail [] ["1:A", "2:F", "3:C"] data7 res7).2 "3:C" =
        some (Val.vint 2)) :=
  ⟨(C7_claim updFail [] ["1:A", "2:F", "3:C"] data7 res7 "2:F"
      (Val.vint 9) (Val.vint 8) (fun _ _ _ => rfl) rfl rfl).1,
   (C7_claim updFail [] ["1:A", "2:F", "3:C"] data7 res7 "2:F"
      (Val.vint 9) (Val.vint 8) (fun _ _ _ => rfl) rfl rfl).2
     "3:C" (Val.vint 1) (Val.vint 2) (by decide) (by decide)
     (fun _ _ _ => rfl)⟩

/-! ### Claim C8 -/

/-- Claim C8, counterexample: deleting node 1:A removes its links and its
node-list entry, but the shared `node_data_dict` is never told: after the
deletion a refresh cycle over the remaining node list still holds 1:A's
stale payload 5 — the id is not evicted. -/
theorem C8_counterexample :
    (callback_mv_key_del "1:A" ["1:A", "2:B"] [chainAB]).1 = ["2:B"] ∧
    (callback_mv_key_del "1:A" ["1:A", "2:B"] [chainAB]).2 = [] ∧
    sort_node_graph ["2:B"] [] 1 = some [] ∧
    (update_node_info updDemo [] ["2:B"] dataPrior resPrior).1 "1:A" =
      some (Val.vint 5) := by
  decide

/-- Claim C8 (amended): deleting a node removes it from the node list,
removes every link with an endpoint on it, and the re-computed execution
order no longer mentions it; the shared data/result maps are NOT evicted
(the deleted id keeps its stale entry, as the counterexample shows). -/
theorem C8_claim (n : String) (node_list : List String) (links : List Link)
    (fuel : Nat) (order : List ConnEntry)
    (hnd : node_list.Nodup)
    (hwf : idKeyConsistent links)
    (htags : ∀ l ∈ links, nodeNameKey l.2 = nodeKeyOf l.2)
    (hrun : sort_node_graph (callback_mv_key_del n node_list links).1
      (callback_mv_key_del n node_list links).2 fuel = some order) :
    n ∉ (callback_mv_key_del n node_list links).1 ∧
    (∀ l ∈ (callback_mv_key_del n node_list links).2, touches n l = false) ∧
    n ∉ order.map Prod.fst := by
  refine ⟨List.Nodup.not_mem_erase hnd, key_del_removes, ?_⟩
  intro hmem
  have hsub : (key_del_links n links).Sublist links :=
    key_del_links_sublist n links
  have hwf2 : idKeyConsistent (key_del_links n links) := by
    intro t ht u hu
    have hmono : ∀ x ∈ allTags (key_del_links n links), x ∈ allTags links := by
      intro x hx
      rw [allTags] at hx ⊢
      rcases List.mem_append.mp hx with hx | hx
      · exact List.mem_append_left _ ((hsub.map (·.1)).subset hx)
      · exact List.mem_append_right _ ((hsub.map (·.2)).subset hx)
    exact hwf t (hmono t ht) u (hmono u hu)
  obtain ⟨l, hl, hk⟩ := (sort_keys_iff hwf2 hrun n).mp hmem
  have hnt : touches n l = false := key_del_removes l hl
  have hkey : nodeKeyOf l.2 ≠ n := by
    rw [touches] at hnt
    simp only [Bool.or_eq_false_iff, beq_eq_false_iff_ne] at hnt
    exact hnt.2
  exact hkey ((htags l (hsub.subset hl)).symm.trans hk)

/-- Claim C8, witness: deleting 1:A from the chain A→B→C leaves nodes
[2:B, 3:C] and link B→C only; the recomputed order is the single entry
3:C, which does not mention 1:A; no link touches 1:A any more. -/
theorem C8_witness :
    (chainNodes.Nodup ∧ idKeyConsistent chainLinks ∧
     sort_node_graph (callback_mv_key_del "1:A" chainNodes chainLinks).1
       (callback_mv_key_del "1:A" chainNodes chainLinks).2 10 =
       some [("3:C", [chainBC])]) ∧
    ("1:A" ∉ (callback_mv_key_del "1:A" chainNodes chainLinks).1 ∧
     (∀ l ∈ (callback_mv_key_del "1:A" chainNodes chainLinks).2,
       touches "1:A" l = false) ∧
     "1:A" ∉ ([("3:C", [chainBC])].map Prod.fst)) :=
  ⟨⟨by decide, by decide, by decide⟩,
   C8_claim "1:A" chainNodes chainLinks 10 [("3:C", [chainBC])]
     (by decide) (by decide) (by decide) (by decide)⟩

/-! ### Claim C9 -/

/-- The settings dictionary the DefaultDataset node kind returns from its
`get_setting_dict`: the keys are 'dataset_loaded' and 'node_type' — no
'ver' and no 'pos'. -/
def defaultDatasetSetting : NodeSetting :=
  [("dataset_loaded", Val.vint 1),
   ("node_type", Val.vstr "default_dataset")]

/-- `get_setting_dict` capability of an editor whose nodes are
DefaultDataset instances. -/
def getSettingDD : String → String → NodeSetting :=
  fun _ _ => defaultDatasetSetting

/-- Claim C9, counterexample: export a dashboard holding one
DefaultDataset node and import the snapshot into an empty editor.  The
loop of the import callback reads the setting's 'ver' key, which
DefaultDataset's settings dict does not contain, so the import aborts
with a KeyError after bumping the id counter — no graph is reproduced. -/
theorem C9_counterexample :
    lookupVal defaultDatasetSetting "ver" = none ∧
    callback_file_import
      (callback_file_export ["1:DefaultDataset"] [] Val.vnone getSettingDD)
      0 1 = Except.error ⟨1, [], "ver"⟩ :=
  ⟨rfl, rfl⟩

/-- Claim C9 (amended): for a dashboard in which every node's exported
settings dict carries the 'ver' and 'pos' keys the import loop reads
(true of every shipped node kind except DefaultDataset), exporting and
re-importing into an empty editor reproduces the same node list (same
kinds, same ids), the same link list endpoint-for-endpoint, the freshly
re-linearised connection dictionary, and replays each node's exported
settings verbatim, in node order.  A snapshot holding a node without
those keys aborts the import with a KeyError instead. -/
theorem C9_claim (node_list : List String) (links : List Link)
    (config : Val) (getSetting : String → String → NodeSetting)
    (node_id0 fuel : Nat)
    (hver : ∀ nn ∈ node_list,
      lookupVal (getSetting (tagPart nn 1) (tagPart nn 0)) "ver" ≠ none)
    (hpos : ∀ nn ∈ node_list,
      lookupVal (getSetting (tagPart nn 1) (tagPart nn 0)) "pos" ≠ none) :
    ∃ out, callback_file_import (callback_file_export node_list links config
        getSetting) node_id0 fuel = Except.ok out ∧
      out.node_list = node_list ∧
      out.link_list = links ∧
      out.conn = sort_node_graph node_list links fuel ∧
      out.applied = node_list.map (fun nn =>
        (parseId nn, getSetting (tagPart nn 1) (tagPart nn 0))) :=
  import_export_roundtrip node_list links config getSetting node_id0 fuel
    hver hpos

/-- Settings dictionary of the shape the LineChart kind exports: 'ver'
and 'pos' present, opaque remainder. -/
def lineChartSetting : NodeSetting :=
  [("ver", Val.vstr "0.0.1"), ("pos", Val.vnone),
   ("chart_width", Val.vint 800)]

/-- `get_setting_dict` capability of an editor whose nodes are LineChart
instances. -/
def getSettingLC : String → String → NodeSetting :=
  fun _ _ => lineChartSetting

/-- Claim C9, witness: a one-node LineChart dashboard round-trips. -/
theorem C9_witness :
    ((∀ nn ∈ ["1:LineChart"],
       lookupVal (getSettingLC (tagPart nn 1) (tagPart nn 0)) "ver" ≠
         none) ∧
     (∀ nn ∈ ["1:LineChart"],
       lookupVal (getSettingLC (tagPart nn 1) (tagPart nn 0)) "pos" ≠
         none)) ∧
    (∃ out, callback_file_import
        (callback_file_export ["1:LineChart"] [] Val.vnone getSettingLC)
        0 1 = Except.ok out ∧
      out.node_list = ["1:LineChart"] ∧
      out.link_list = [] ∧
      out.conn = sort_node_graph ["1:LineChart"] [] 1 ∧
      out.applied = ["1:LineChart"].map (fun nn =>
        (parseId nn, getSettingLC (tagPart nn 1) (tagPart nn 0)))) :=
  ⟨⟨by decide, by decide⟩,
   C9_claim ["1:LineChart"] [] Val.vnone getSettingLC 0 1 (by decide)
     (by decide)⟩

/-! ### Claim C10 -/

/-- Claim C10: node deletion is frame-preserving for the rest of the
graph — every link that does not touch the deleted node survives, the
surviving links keep their relative order (a sublist of the original), and
the other nodes remain, in their original relative order. -/
theorem C10_claim (n : String) (node_list : List String)
    (links : List Link) :
    (∀ l ∈ links, touches n l = false →
      l ∈ (callback_mv_key_del n node_list links).2) ∧
    ((callback_mv_key_del n node_list links).2).Sublist links ∧
    (∀ m ∈ node_list, m ≠ n → m ∈ (callback_mv_key_del n node_list links).1) ∧
    ((callback_mv_key_del n node_list links).1).Sublist node_list :=
  ⟨key_del_keeps, key_del_links_sublist n links,
   fun _ hm hmn => (List.mem_erase_of_ne hmn).mpr hm,
   List.erase_sublist n node_list⟩

/-- Claim C10, witness: deleting 1:A from the chain keeps the untouched
link B→C and keeps nodes 2:B and 3:C in order. -/
theorem C10_witness :
    (chainBC ∈ chainLinks ∧ touches "1:A" chainBC = false ∧
     "2:B" ∈ chainNodes ∧ "2:B" ≠ "1:A") ∧
    (chainBC ∈ (callback_mv_key_del "1:A" chainNodes chainLinks).2 ∧
     ((callback_mv_key_del "1:A" chainNodes chainLinks).2).Sublist
       chainLinks ∧
     "2:B" ∈ (callback_mv_key_del "1:A" chainNodes chainLinks).1 ∧
     ((callback_mv_key_del "1:A" chainNodes chainLinks).1).Sublist
       chainNodes) :=
  ⟨⟨by decide, by decide, by decide, by decide⟩,
   ⟨(C10_claim "1:A" chainNodes chainLinks).1 chainBC (by decide)
      (by decide),
    (C10_claim "1:A" chainNodes chainLinks).2.1,
    (C10_claim "1:A" chainNodes chainLinks).2.2.1 "2:B" (by decide)
      (by decide),
    (C10_claim "1:A" chainNodes chainLinks).2.2.2⟩⟩

end Atlas
